import Mathlib

/-!
Verification of the dotnet-style duration codec in `src/timespan/dotnet.py`.

The module converts between a signed total-seconds value and .NET `TimeSpan`
strings (format specifiers `c`, `g`, `G`).  Machine floats are modelled as
exact rationals; the one place where CPython quantizes — `datetime.timedelta`
storing whole microseconds, rounding half-to-even — is modelled explicitly by
`roundHalfEven`.  Strings are modelled as `List Char`.

The decimal separator `_NUMBER_DECIMAL_SEPARATOR` is read from the environment
or the host locale at import time; it is modelled here by its default value
`'.'` (the C / en-US locale), the configuration under which the repository's
doctests and round-trip test run.
-/

/-- Numeric value of a decimal digit character (`int` applied to a digit). -/
def digitVal (c : Char) : ℕ := c.toNat - 48

/-- Numeric value of a decimal digit string, as Python `int("<digits>")`. -/
def digitsVal (l : List Char) : ℕ := l.foldl (fun a c => 10 * a + digitVal c) 0

/-- Helper for `natChars`: fuel-based decimal rendering (any fuel ≥ n works). -/
def natCharsAux : ℕ → ℕ → List Char → List Char
  | 0, _, acc => acc
  | fuel + 1, n, acc =>
    if n = 0 then acc else natCharsAux fuel (n / 10) (Nat.digitChar (n % 10) :: acc)

/-- Decimal rendering of a natural number, Python `str(n)` for nonnegative `n`. -/
def natChars (n : ℕ) : List Char := if n = 0 then ['0'] else natCharsAux n n []

/-- Python `s.zfill(w)` (equivalently `s.rjust(w, '0')`) on a digit string. -/
def zfill (w : ℕ) (l : List Char) : List Char := List.replicate (w - l.length) '0' ++ l

/-- Python `s.rstrip('0')`: drop trailing zero characters. -/
def rstripZeros (l : List Char) : List Char := (l.reverse.dropWhile (fun c => c = '0')).reverse

/-- Round a rational to the nearest integer, ties to even.  This is the
rounding CPython's `datetime.timedelta` applies to fractional microseconds. -/
def roundHalfEven (q : ℚ) : ℤ :=
  if q - ⌊q⌋ < 1 / 2 then ⌊q⌋
  else if 1 / 2 < q - ⌊q⌋ then ⌊q⌋ + 1
  else if ⌊q⌋ % 2 = 0 then ⌊q⌋ else ⌊q⌋ + 1

/-- Total seconds of `datetime.timedelta(days=d, hours=h, minutes=m, seconds=s,
milliseconds=ms)`: the exact calendar-agnostic rational sum quantized to whole
microseconds with a half-even tiebreaker, which is the precision `timedelta`
stores.  (CPython additionally incurs IEEE-double representation error on the
way in and out; that error is far below the microsecond granularity modelled
here and is not represented.) -/
def timedeltaSeconds (d h m s ms : ℚ) : ℚ :=
  (roundHalfEven ((d * 86400 + h * 3600 + m * 60 + s + ms / 1000) * 1000000) : ℚ) / 1000000

/-- `_TICKS_PER_SECOND = 1e7` (dotnet.py line 97). -/
def TICKS_PER_SECOND : ℚ := 10000000

/-- The message of the `ValueError` raised by `_args_to_seconds` for a bad
argument count: `f"Cannot initialize a TimeSpan instance with {len(args)} arguments"`. -/
def arityMessage (n : ℕ) : List Char :=
  "Cannot initialize a TimeSpan instance with ".data ++ natChars n ++ " arguments".data

/-- Model of `_args_to_seconds(args, by_ticks=...)` (dotnet.py lines 113-161):
dispatch on the argument count into `datetime.timedelta(...)` components and
return the total seconds; any other count raises `ValueError`. -/
def args_to_seconds (args : List ℚ) (byTicks : Bool) : Except (List Char) ℚ :=
  match args with
  | [a] => .ok (timedeltaSeconds 0 0 0 (if byTicks then a / TICKS_PER_SECOND else a) 0)
  | [h, m, s] => .ok (timedeltaSeconds 0 h m s 0)
  | [d, h, m, s] => .ok (timedeltaSeconds d h m s 0)
  | [d, h, m, s, ms] => .ok (timedeltaSeconds d h m s ms)
  | _ => .error (arityMessage args.length)

/-- The three format specifiers `('c', 'g', 'G')`; `to_string` asserts the
specifier is one of these. -/
inductive Specifier
  | c
  | g
  | G
deriving DecidableEq

/-- `_NUMBER_DECIMAL_SEPARATOR` modelled at its default value (C locale). -/
def NUMBER_DECIMAL_SEPARATOR : Char := '.'

/-- Total microseconds stored by `datetime.timedelta(seconds=abs(t))`
(dotnet.py line 180). -/
def tdUS (t : ℚ) : ℕ := (roundHalfEven (|t| * 1000000)).toNat

/-- `delta.days` as a function of the stored microseconds. -/
def usDays (μ : ℕ) : ℕ := μ / 86400000000

/-- `delta.seconds` as a function of the stored microseconds. -/
def usSecs (μ : ℕ) : ℕ := μ / 1000000 % 86400

/-- `delta.microseconds` as a function of the stored microseconds. -/
def usMicro (μ : ℕ) : ℕ := μ % 1000000

/-- `h` from `h, remainder = divmod(delta.seconds, 3600)` (line 182). -/
def usHours (μ : ℕ) : ℕ := usSecs μ / 3600

/-- `m` from `m, s = divmod(remainder, 60)` (line 183). -/
def usMinutes (μ : ℕ) : ℕ := usSecs μ % 3600 / 60

/-- `s` from `m, s = divmod(remainder, 60)` (line 183). -/
def usSeconds (μ : ℕ) : ℕ := usSecs μ % 3600 % 60

/-- `f = delta.microseconds * 10` (line 184): the tick fraction. -/
def usTicks (μ : ℕ) : ℕ := usMicro μ * 10

/-- `str(h).zfill(1 if specifier == 'g' else 2)` (line 187). -/
def hourStrUS (spec : Specifier) (μ : ℕ) : List Char :=
  zfill (if spec = Specifier.g then 1 else 2) (natChars (usHours μ))

/-- `str(m).zfill(2)` (line 188). -/
def minuteStrUS (μ : ℕ) : List Char := zfill 2 (natChars (usMinutes μ))

/-- `str(s).zfill(2)` (line 189). -/
def secondStrUS (μ : ℕ) : List Char := zfill 2 (natChars (usSeconds μ))

/-- The fraction segment of the output (lines 191-196): emitted when `f > 0`
or the specifier is `G`; separator `'.'` for `c`, the configured separator
otherwise; digits right-justified to 7 with `'0'`; `g` strips trailing zeros. -/
def fracPartUS (spec : Specifier) (μ : ℕ) : List Char :=
  if 0 < usTicks μ ∨ spec = Specifier.G then
    let base := (if spec = Specifier.c then '.' else NUMBER_DECIMAL_SEPARATOR)
      :: zfill 7 (natChars (usTicks μ))
    if spec = Specifier.g then rstripZeros base else base
  else []

/-- The days segment of the output (lines 199-202): emitted when `d > 0` or
the specifier is `G`; separator `'.'` for `c`, `':'` otherwise. -/
def daysPartUS (spec : Specifier) (μ : ℕ) : List Char :=
  if 0 < usDays μ ∨ spec = Specifier.G then
    natChars (usDays μ) ++ [if spec = Specifier.c then '.' else ':']
  else []

/-- The unsigned body `f"{d}{h}:{m}:{s}{f}"` of the output, as a function of
the stored microseconds of `timedelta(seconds=abs(seconds))`. -/
def coreBody (spec : Specifier) (μ : ℕ) : List Char :=
  daysPartUS spec μ ++ hourStrUS spec μ ++ ':' :: minuteStrUS μ ++ ':' :: secondStrUS μ
    ++ fracPartUS spec μ

/-- `sign = '-' if seconds < 0 else ''` (line 205). -/
def signPart (t : ℚ) : List Char := if t < 0 then ['-'] else []

/-- The body of `to_string` (lines 179-206) applied to an already-computed
total-seconds value: decompose `abs(seconds)` through `timedelta` and build
`f"{sign}{d}{h}:{m}:{s}{f}"`. -/
def to_string_core (spec : Specifier) (seconds : ℚ) : List Char :=
  signPart seconds ++ coreBody spec (tdUS seconds)

/-- `to_string(specifier, *args)` (lines 164-206): convert the argument tuple
via `_args_to_seconds` (with `by_ticks` false) and format. -/
def to_string (spec : Specifier) (args : List ℚ) : Except (List Char) (List Char) :=
  (args_to_seconds args false).map (to_string_core spec)

/-- The claims' decomposed `days` of a duration: `delta.days` for
`timedelta(seconds=abs(t))`. -/
def tdDays (t : ℚ) : ℕ := usDays (tdUS t)

/-- The claims' decomposed `hours` of a duration. -/
def hoursOf (t : ℚ) : ℕ := usHours (tdUS t)

/-- The claims' decomposed `minutes` of a duration. -/
def minutesOf (t : ℚ) : ℕ := usMinutes (tdUS t)

/-- The claims' decomposed `seconds` of a duration. -/
def secondsOf (t : ℚ) : ℕ := usSeconds (tdUS t)

/-- The claims' decomposed tick fraction of a duration. -/
def fracTicksOf (t : ℚ) : ℕ := usTicks (tdUS t)

/-- Captured groups of `_PATTERN` (dotnet.py lines 98-107).  `days` keeps the
digit run and its trailing separator separately, mirroring the later
`rstrip(':.')`; `fraction` keeps the separator character and the digit run. -/
structure TSGroups where
  neg : Bool
  days : Option (List Char × Char)
  hours : List Char
  minutes : List Char
  seconds : List Char
  fraction : Option (Char × List Char)
deriving DecidableEq

/-- Match `(?P<fraction>[.,]\d{1,7})?$` against the remaining input: either
nothing is left, or a separator followed by 1 to 7 digits ends the input.
Here and below, the pattern's `\d` is modelled by the ASCII digit test
`Char.isDigit`: CPython compiles `_PATTERN` without `re.ASCII`, so its `\d`
also matches non-ASCII Unicode decimal digits (which `int()` and `float()`
then accept).  The embedding is therefore faithful on ASCII input, and every
statement about the parser's whole domain is scoped to that fragment. -/
def parseFrac : List Char → Option (Option (Char × List Char))
  | [] => some none
  | c :: ds =>
    if (c = '.' ∨ c = ',') ∧ ds ≠ [] ∧ ds.length ≤ 7 ∧ ds.all Char.isDigit then some (some (c, ds))
    else none

/-- Match `(?P<hours>\d{1,2}):(?P<minutes>\d{2}):(?P<seconds>\d{2})` followed
by the optional fraction and the anchor.  The hour digits are the maximal
digit run (1 or 2 long, else the regex cannot place the following `':'`);
minutes and seconds are fixed two-digit fields.  `\d` is the ASCII digit
test, faithful on ASCII input (see `parseFrac`). -/
def parseHMSF (cs : List Char) :
    Option (List Char × List Char × List Char × Option (Char × List Char)) :=
  match List.span Char.isDigit cs with
  | (hh, ':' :: rest) =>
    if hh.length = 1 ∨ hh.length = 2 then
      match rest with
      | m1 :: m2 :: ':' :: s1 :: s2 :: rest2 =>
        if m1.isDigit ∧ m2.isDigit ∧ s1.isDigit ∧ s2.isDigit then
          match parseFrac rest2 with
          | some fr => some (hh, [m1, m2], [s1, s2], fr)
          | none => none
        else none
      | _ => none
    else none
  | _ => none

/-- The alternative of `(?P<days>\\d+[:.])?` in which the optional days group
is absent: the whole remaining input is hours/minutes/seconds/fraction. -/
def noDaysBranch (cs : List Char) : Option TSGroups :=
  (parseHMSF cs).map fun x => ⟨false, none, x.1, x.2.1, x.2.2.1, x.2.2.2⟩

/-- The alternative in which the greedy optional days group is present: a
nonempty digit run, a `':'` or `'.'` separator, then hours/minutes/seconds/
fraction on the rest.  `\d` is again the ASCII digit test, faithful on ASCII
input (see `parseFrac`). -/
def daysBranch (cs : List Char) : Option TSGroups :=
  match List.span Char.isDigit cs with
  | (dd, sep :: rest) =>
    if dd ≠ [] ∧ (sep = ':' ∨ sep = '.') then
      (parseHMSF rest).map fun x => ⟨false, some (dd, sep), x.1, x.2.1, x.2.2.1, x.2.2.2⟩
    else none
  | _ => none

/-- Match the pattern after the sign: first with the optional greedy
`(?P<days>\\d+[:.])?` group present, then without it.  (The two alternatives
accept disjoint languages, so this first-match choice is exactly the regex
backtracking order.) -/
def matchCore (cs : List Char) : Option TSGroups :=
  match daysBranch cs with
  | some g => some g
  | none => noDaysBranch cs

/-- Anchored match of `_PATTERN` proper (without Python's `$` newline quirk):
`^(?P<sign>-?)` then days/hours/minutes/seconds/fraction to the end. -/
def pureMatch (cs : List Char) : Option TSGroups :=
  match cs with
  | '-' :: rest =>
    (matchCore rest).map fun g => ⟨true, g.days, g.hours, g.minutes, g.seconds, g.fraction⟩
  | _ => matchCore cs

/-- Python's `$` also matches just before a newline that ends the string.  No
character class of `_PATTERN` matches `'\n'`, so `_PATTERN.match(s)` succeeds
exactly when the pattern proper matches `s` with a single optional trailing
newline removed. -/
def stripTrailingNL (cs : List Char) : List Char :=
  if cs.getLast? = some '\n' then cs.dropLast else cs

/-- `_PATTERN.match(timespan_string)` with CPython `re` semantics. -/
def reMatch (cs : List Char) : Option TSGroups := pureMatch (stripTrailingNL cs)

/-- Python `float(groups['fraction'] or 0.0)` (line 224).  The captured text
includes the separator: `float(".51")` is `0.51`, but `float(",51")` raises
`ValueError` — `float` never accepts a comma, whatever the locale. -/
def fractionVal : Option (Char × List Char) → Option ℚ
  | none => some 0
  | some (sep, ds) => if sep = ',' then none else some ((digitsVal ds : ℚ) / 10 ^ ds.length)

/-- The digit text of the captured days group: `(groups['days'] or '0')` with
the trailing separator stripped by `rstrip(':.')` (the group keeps its digits
and separator apart, so stripping is dropping the separator; an absent group
contributes the digits of `'0'`, i.e. value zero). -/
def daysDigits : Option (List Char × Char) → List Char
  | none => []
  | some (ds, _) => ds

/-- Total seconds of the `timedelta` built by `from_string` (line 225) from
matched groups and fraction value: every component is multiplied by the sign,
and `timedelta` quantizes the `seconds + fraction` float argument to whole
microseconds (half-even). -/
def groupsSeconds (g : TSGroups) (fq : ℚ) : ℚ :=
  let sgn : ℤ := if g.neg then -1 else 1
  let days : ℤ := sgn * digitsVal (daysDigits g.days)
  let hours : ℤ := sgn * digitsVal g.hours
  let minutes : ℤ := sgn * digitsVal g.minutes
  let seconds : ℤ := sgn * digitsVal g.seconds
  let fraction : ℚ := (sgn : ℚ) * fq
  ((days * 86400 + hours * 3600 + minutes * 60 : ℤ) : ℚ)
    + (roundHalfEven (((seconds : ℚ) + fraction) * 1000000) : ℚ) / 1000000

/-- `from_string(timespan_string)` (lines 209-226), as the total seconds of
the returned `timedelta`.  `none` models the two raised exceptions: the
`AttributeError` when `_PATTERN.match` returns `None`, and the `ValueError`
from `float` when the fraction group starts with a comma. -/
def from_string (cs : List Char) : Option ℚ :=
  (reMatch cs).bind fun g => (fractionVal g.fraction).map (groupsSeconds g)

/-- `total_seconds(timespan_string)` (lines 229-241): `from_string` followed
by `timedelta.total_seconds()`, which is exactly the value modelled by
`from_string` here. -/
def total_seconds (cs : List Char) : Option ℚ := from_string cs

/-- The text of an optional fraction group: the separator followed by the
digits, or nothing. -/
def fracRender : Option (Char × List Char) → List Char
  | none => []
  | some (sep, ds) => sep :: ds

/-- The text of an optional days group: the digits followed by the
separator, or nothing. -/
def daysRender : Option (List Char × Char) → List Char
  | none => []
  | some (ds, sep) => ds ++ [sep]

/-- Grammar constraints on the optional fraction group:
`[.,]` then 1 to 7 digits. -/
def fracWF : Option (Char × List Char) → Prop
  | none => True
  | some (sep, ds) =>
    (sep = '.' ∨ sep = ',') ∧ ds ≠ [] ∧ ds.length ≤ 7 ∧ ∀ c ∈ ds, c.isDigit = true

/-- Grammar constraints on the optional days group: digits then `[:.]`. -/
def daysWF : Option (List Char × Char) → Prop
  | none => True
  | some (ds, sep) => ds ≠ [] ∧ (∀ c ∈ ds, c.isDigit = true) ∧ (sep = ':' ∨ sep = '.')

/-- Well-formedness of captured groups: exactly the constraints the spec's
grammar `[-]? (DAYS [:.])? HOURS(1-2) ":" MINUTES(2) ":" SECONDS(2)
([.,]FRACTION(1-7))?` places on each field. -/
def GroupsWF (g : TSGroups) : Prop :=
  daysWF g.days ∧
  g.hours ≠ [] ∧ g.hours.length ≤ 2 ∧ (∀ c ∈ g.hours, c.isDigit = true) ∧
  g.minutes.length = 2 ∧ (∀ c ∈ g.minutes, c.isDigit = true) ∧
  g.seconds.length = 2 ∧ (∀ c ∈ g.seconds, c.isDigit = true) ∧
  fracWF g.fraction

/-- The unsigned part of the string spelled by a set of captured groups. -/
def bodyRender (g : TSGroups) : List Char :=
  daysRender g.days ++ g.hours ++ ':' :: g.minutes ++ ':' :: g.seconds ++ fracRender g.fraction

/-- The string spelled by a set of captured groups. -/
def renderGroups (g : TSGroups) : List Char :=
  (if g.neg then ['-'] else []) ++ bodyRender g

/-- Membership in the spec's anchored grammar, stated independently of the
parser: the string decomposes into well-formed groups.  (This is the
spec-side full-string grammar; it has no tolerance for a trailing newline.) -/
def SpecGrammar (cs : List Char) : Prop := ∃ g : TSGroups, GroupsWF g ∧ cs = renderGroups g

/-- The captured groups that `_PATTERN` recovers from a formatted output with
stored microseconds `μ` (sign handled separately). -/
def formatGroups (spec : Specifier) (μ : ℕ) : TSGroups :=
  ⟨false,
   if 0 < usDays μ ∨ spec = Specifier.G then
     some (natChars (usDays μ), if spec = Specifier.c then '.' else ':')
   else none,
   hourStrUS spec μ,
   minuteStrUS μ,
   secondStrUS μ,
   if 0 < usTicks μ ∨ spec = Specifier.G then
     some (if spec = Specifier.c then '.' else NUMBER_DECIMAL_SEPARATOR,
       if spec = Specifier.g then rstripZeros (zfill 7 (natChars (usTicks μ)))
       else zfill 7 (natChars (usTicks μ)))
   else none⟩

/-! ### Properties of the half-even rounding -/

/-- Rounding fixes integers. -/
theorem roundHalfEven_intCast (k : ℤ) : roundHalfEven (k : ℚ) = k := by
  unfold roundHalfEven
  rw [Int.floor_intCast]
  norm_num

/-- Rounding fixes natural numbers. -/
theorem roundHalfEven_natCast (n : ℕ) : roundHalfEven (n : ℚ) = n := by
  have := roundHalfEven_intCast (n : ℤ)
  push_cast at this
  exact this

/-- Rounding a nonnegative rational gives a nonnegative integer. -/
theorem roundHalfEven_nonneg {q : ℚ} (h : 0 ≤ q) : 0 ≤ roundHalfEven q := by
  have h0 : (0 : ℤ) ≤ ⌊q⌋ := Int.floor_nonneg.mpr h
  unfold roundHalfEven
  split_ifs <;> omega

/-- The rounded value is within half a unit of the input. -/
theorem abs_roundHalfEven_sub (q : ℚ) : |(roundHalfEven q : ℚ) - q| ≤ 1 / 2 := by
  have h0 : (⌊q⌋ : ℚ) ≤ q := Int.floor_le q
  have h1 : q < ⌊q⌋ + 1 := Int.lt_floor_add_one q
  unfold roundHalfEven
  split_ifs with ha hb hc <;> push_cast <;> rw [abs_le] <;> constructor <;> linarith

/-- Half-even rounding is an odd function. -/
theorem roundHalfEven_neg (q : ℚ) : roundHalfEven (-q) = -roundHalfEven q := by
  rcases eq_or_ne (q - ⌊q⌋) 0 with hr | hr
  · have hq : q = (⌊q⌋ : ℚ) := by linarith
    rw [hq, ← Int.cast_neg, roundHalfEven_intCast, roundHalfEven_intCast]
  · have h0 : (0 : ℚ) ≤ q - ⌊q⌋ := by
      have := Int.floor_le q
      linarith
    have hpos : (0 : ℚ) < q - ⌊q⌋ := lt_of_le_of_ne h0 (Ne.symm hr)
    have h1 : q - ⌊q⌋ < 1 := by
      have := Int.lt_floor_add_one q
      linarith
    have hfn : ⌊-q⌋ = -⌊q⌋ - 1 := by
      rw [Int.floor_eq_iff]
      push_cast
      constructor <;> linarith
    unfold roundHalfEven
    rw [hfn]
    push_cast
    split_ifs <;> first | omega | linarith

/-- Rounding a value strictly inside `(-1/2, 1/2)` gives zero. -/
theorem roundHalfEven_eq_zero {q : ℚ} (h1 : -(1 / 2) < q) (h2 : q < 1 / 2) :
    roundHalfEven q = 0 := by
  have hf : ⌊q⌋ = 0 ∨ ⌊q⌋ = -1 := by
    have ha : (-1 : ℤ) ≤ ⌊q⌋ := by
      have : ((-1 : ℤ) : ℚ) ≤ q := by push_cast; linarith
      exact Int.le_floor.mpr this
    have hb : ⌊q⌋ < 1 := by
      rw [Int.floor_lt]
      push_cast
      linarith
    omega
  have h0 : (⌊q⌋ : ℚ) ≤ q := Int.floor_le q
  unfold roundHalfEven
  rcases hf with hf | hf <;> rw [hf] <;> push_cast <;> split_ifs <;> first | rfl | omega | linarith

/-- Evaluation helper: the microseconds stored by `timedelta(seconds=abs(t))`
when the scaled absolute value is a whole number. -/
theorem tdUS_eq {t : ℚ} {n : ℕ} (h : |t| * 1000000 = (n : ℚ)) : tdUS t = n := by
  rw [tdUS, h, roundHalfEven_natCast, Int.toNat_natCast]

/-! ### Digit strings -/

/-- Folding the digit accumulator from `a` shifts the result by `10 ^ length`. -/
theorem digitsVal_shift (l : List Char) :
    ∀ a : ℕ, l.foldl (fun x c => 10 * x + digitVal c) a = a * 10 ^ l.length + digitsVal l := by
  induction l with
  | nil => intro a; simp [digitsVal]
  | cons c t ih =>
    intro a
    simp only [digitsVal, List.foldl_cons, List.length_cons]
    rw [ih (10 * a + digitVal c), ih (10 * 0 + digitVal c)]
    ring

/-- Peeling the leading digit. -/
theorem digitsVal_cons (c : Char) (t : List Char) :
    digitsVal (c :: t) = digitVal c * 10 ^ t.length + digitsVal t := by
  simp only [digitsVal, List.foldl_cons]
  rw [digitsVal_shift]
  simp [digitsVal]

/-- Concatenation of digit strings. -/
theorem digitsVal_append (a b : List Char) :
    digitsVal (a ++ b) = digitsVal a * 10 ^ b.length + digitsVal b := by
  simp only [digitsVal, List.foldl_append]
  rw [digitsVal_shift]
  rfl

/-- A run of `'0'` characters has value zero. -/
theorem digitsVal_replicate_zero (n : ℕ) : digitsVal (List.replicate n '0') = 0 := by
  induction n with
  | zero => rfl
  | succ k ih =>
    rw [List.replicate_succ, digitsVal_cons, ih]
    have h0 : digitVal '0' = 0 := rfl
    rw [h0]
    ring

/-- Left zero padding does not change the numeric value. -/
theorem digitsVal_zfill (w : ℕ) (l : List Char) : digitsVal (zfill w l) = digitsVal l := by
  rw [zfill, digitsVal_append, digitsVal_replicate_zero]
  simp

/-- Length of a padded digit string. -/
theorem zfill_length {w : ℕ} {l : List Char} (h : l.length ≤ w) : (zfill w l).length = w := by
  simp [zfill]
  omega

/-- Padding preserves digit-ness. -/
theorem zfill_digits {w : ℕ} {l : List Char} (h : ∀ c ∈ l, c.isDigit = true) :
    ∀ c ∈ zfill w l, c.isDigit = true := by
  intro c hc
  rcases List.mem_append.mp hc with hc | hc
  · rw [List.eq_of_mem_replicate hc]
    rfl
  · exact h c hc

/-- Padding a nonempty string stays nonempty. -/
theorem zfill_ne_nil {w : ℕ} {l : List Char} (h : l ≠ []) : zfill w l ≠ [] := by
  simp [zfill, h]

/-- The single rendered digit has the rendered value. -/
theorem digitsVal_digitChar {k : ℕ} (h : k < 10) : digitsVal [Nat.digitChar k] = k := by
  interval_cases k <;> rfl

/-- Rendered digits are digit characters. -/
theorem digitChar_isDigit {k : ℕ} (h : k < 10) : (Nat.digitChar k).isDigit = true := by
  interval_cases k <;> rfl

/-- The accumulator of `natCharsAux` is a suffix. -/
theorem natCharsAux_append (fuel : ℕ) :
    ∀ (n : ℕ) (acc : List Char), natCharsAux fuel n acc = natCharsAux fuel n [] ++ acc := by
  induction fuel with
  | zero => intro n acc; rfl
  | succ f ih =>
    intro n acc
    by_cases h : n = 0
    · simp [natCharsAux, h]
    · simp only [natCharsAux, if_neg h]
      rw [ih (n / 10) (Nat.digitChar (n % 10) :: acc), ih (n / 10) [Nat.digitChar (n % 10)]]
      simp

/-- `natCharsAux` renders the value it was given (any sufficient fuel). -/
theorem natCharsAux_val (fuel : ℕ) :
    ∀ n : ℕ, n ≤ fuel → digitsVal (natCharsAux fuel n []) = n := by
  induction fuel with
  | zero =>
    intro n h
    interval_cases n
    rfl
  | succ f ih =>
    intro n h
    by_cases h0 : n = 0
    · subst h0; rfl
    · simp only [natCharsAux, if_neg h0]
      rw [natCharsAux_append, digitsVal_append,
        ih (n / 10) (by omega), digitsVal_digitChar (Nat.mod_lt _ (by norm_num))]
      simp only [List.length_singleton]
      omega

/-- Every character rendered by `natCharsAux` onto a digit accumulator is a digit. -/
theorem natCharsAux_digits (fuel : ℕ) :
    ∀ (n : ℕ) (acc : List Char), (∀ c ∈ acc, c.isDigit = true) →
      ∀ c ∈ natCharsAux fuel n acc, c.isDigit = true := by
  induction fuel with
  | zero => intro n acc hacc; exact hacc
  | succ f ih =>
    intro n acc hacc
    by_cases h0 : n = 0
    · simpa [natCharsAux, h0] using hacc
    · simp only [natCharsAux, if_neg h0]
      apply ih
      intro c hc
      rcases List.mem_cons.mp hc with rfl | hc
      · exact digitChar_isDigit (Nat.mod_lt _ (by norm_num))
      · exact hacc c hc

/-- Length bound for `natCharsAux`. -/
theorem natCharsAux_length (fuel : ℕ) :
    ∀ n k : ℕ, n ≤ fuel → n < 10 ^ k → (natCharsAux fuel n []).length ≤ k := by
  induction fuel with
  | zero => intro n k h hk; simp [natCharsAux]
  | succ f ih =>
    intro n k h hk
    by_cases h0 : n = 0
    · simp [natCharsAux, h0]
    · simp only [natCharsAux, if_neg h0]
      have hk1 : 1 ≤ k := by
        rcases Nat.eq_zero_or_pos k with rfl | hpos
        · simp at hk
          omega
        · exact hpos
      have hpow : 10 ^ (k - 1) * 10 = 10 ^ k := by
        rw [← pow_succ]
        congr 1
        omega
      have hdiv : n / 10 < 10 ^ (k - 1) := by
        rw [Nat.div_lt_iff_lt_mul (by norm_num : (0 : ℕ) < 10)]
        omega
      have := ih (n / 10) (k - 1) (by omega) hdiv
      rw [natCharsAux_append, List.length_append]
      simp only [List.length_singleton]
      omega

/-- `str(n)` renders the value `n`. -/
theorem natChars_val (n : ℕ) : digitsVal (natChars n) = n := by
  by_cases h : n = 0
  · subst h; rfl
  · simp only [natChars, if_neg h]
    exact natCharsAux_val n n le_rfl

/-- `str(n)` consists of digit characters. -/
theorem natChars_digits (n : ℕ) : ∀ c ∈ natChars n, c.isDigit = true := by
  by_cases h : n = 0
  · subst h
    intro c hc
    rw [List.mem_singleton.mp hc]
    rfl
  · simp only [natChars, if_neg h]
    exact natCharsAux_digits n n [] (by simp)

/-- `str(n)` is never empty. -/
theorem natChars_ne_nil (n : ℕ) : natChars n ≠ [] := by
  by_cases h : n = 0
  · subst h; simp [natChars]
  · simp only [natChars, if_neg h]
    obtain ⟨f, rfl⟩ : ∃ f, n = f + 1 := ⟨n - 1, by omega⟩
    simp only [natCharsAux, if_neg h]
    rw [natCharsAux_append]
    simp

/-- Length bound for `str(n)`. -/
theorem natChars_length_le {n k : ℕ} (h : n < 10 ^ k) (hk : 1 ≤ k) :
    (natChars n).length ≤ k := by
  by_cases h0 : n = 0
  · subst h0
    simpa [natChars] using hk
  · simp only [natChars, if_neg h0]
    exact natCharsAux_length n n k le_rfl h

/-! ### List helpers: stripping and spans -/

/-- `dropWhile` distributes over append when the left part is not consumed. -/
theorem dropWhile_append_of_ne_nil {p : Char → Bool} {a : List Char} (b : List Char)
    (h : a.dropWhile p ≠ []) : (a ++ b).dropWhile p = a.dropWhile p ++ b := by
  induction a with
  | nil => simp at h
  | cons c t ih =>
    by_cases hp : p c
    · rw [List.cons_append, List.dropWhile_cons_of_pos hp, List.dropWhile_cons_of_pos hp]
      exact ih (by rwa [List.dropWhile_cons_of_pos hp] at h)
    · rw [List.cons_append, List.dropWhile_cons_of_neg (by simpa using hp),
        List.dropWhile_cons_of_neg (by simpa using hp), List.cons_append]

/-- The head of a `dropWhile` result fails the predicate. -/
theorem dropWhile_head_not {p : Char → Bool} {l : List Char} {c : Char} {t : List Char}
    (h : l.dropWhile p = c :: t) : p c = false := by
  induction l with
  | nil => simp at h
  | cons x xs ih =>
    by_cases hp : p x
    · rw [List.dropWhile_cons_of_pos hp] at h
      exact ih h
    · rw [List.dropWhile_cons_of_neg (by simpa using hp)] at h
      cases h
      simpa using hp

/-- A stripped string is the original minus a run of trailing zeros. -/
theorem rstripZeros_spec (l : List Char) :
    ∃ k : ℕ, l = rstripZeros l ++ List.replicate k '0' := by
  refine ⟨(l.reverse.takeWhile (fun c => c = '0')).length, ?_⟩
  conv_lhs => rw [← List.reverse_reverse l,
    ← List.takeWhile_append_dropWhile (p := fun c => c = '0') (l := l.reverse)]
  rw [List.reverse_append, rstripZeros]
  congr 1
  have hall : ∀ c ∈ l.reverse.takeWhile (fun c => c = '0'), c = '0' := by
    intro c hc
    simpa using List.mem_takeWhile_imp hc
  rw [List.eq_replicate_of_mem hall]
  simp

/-- Stripping trailing zeros keeps the implied fractional value
`digits / 10 ^ length` unchanged. -/
theorem rstripZeros_fracVal (l : List Char) :
    (digitsVal (rstripZeros l) : ℚ) / 10 ^ (rstripZeros l).length
      = (digitsVal l : ℚ) / 10 ^ l.length := by
  obtain ⟨k, hk⟩ := rstripZeros_spec l
  conv_rhs => rw [hk]
  rw [digitsVal_append, digitsVal_replicate_zero, List.length_append, List.length_replicate]
  push_cast
  rw [pow_add]
  have h10 : ((10 : ℚ) ^ k) ≠ 0 := by positivity
  field_simp
  ring

/-- Stripping preserves membership. -/
theorem mem_of_mem_rstripZeros {l : List Char} {c : Char} (h : c ∈ rstripZeros l) : c ∈ l := by
  obtain ⟨k, hk⟩ := rstripZeros_spec l
  rw [hk]
  exact List.mem_append_left _ h

/-- Stripping a list that contains a nonzero entry after its head keeps the
head and leaves a nonempty strip of the tail. -/
theorem rstripZeros_cons {x : Char} {ds : List Char} (h : ∃ c ∈ ds, c ≠ '0') :
    rstripZeros (x :: ds) = x :: rstripZeros ds ∧ rstripZeros ds ≠ [] := by
  have hne : ds.reverse.dropWhile (fun c => c = '0') ≠ [] := by
    rw [Ne, List.dropWhile_eq_nil_iff]
    push_neg
    obtain ⟨c, hc, hcne⟩ := h
    exact ⟨c, List.mem_reverse.mpr hc, by simpa using hcne⟩
  constructor
  · rw [rstripZeros, List.reverse_cons, dropWhile_append_of_ne_nil _ hne, List.reverse_append]
    rfl
  · rw [rstripZeros]
    simpa using hne

/-- The last character of a stripped string is never `'0'`. -/
theorem rstripZeros_getLast {l : List Char} {c : Char}
    (h : (rstripZeros l).getLast? = some c) : c ≠ '0' := by
  rw [rstripZeros, List.getLast?_reverse] at h
  obtain ⟨t, ht⟩ : ∃ t, l.reverse.dropWhile (fun c => c = '0') = c :: t := by
    cases hd : l.reverse.dropWhile (fun c => c = '0') with
    | nil => rw [hd] at h; simp at h
    | cons a t =>
      rw [hd] at h
      simp only [List.head?_cons, Option.some.injEq] at h
      exact ⟨t, by rw [h]⟩
  simpa using dropWhile_head_not ht

/-- `takeWhile isDigit` over an all-digit run followed by a non-digit
boundary takes exactly the run. -/
theorem takeWhile_digits_append {l r : List Char} (hl : ∀ c ∈ l, c.isDigit = true)
    (hr : ∀ c, r.head? = some c → c.isDigit = false) :
    (l ++ r).takeWhile Char.isDigit = l := by
  induction l with
  | nil =>
    cases r with
    | nil => rfl
    | cons c t =>
      have := hr c rfl
      simp [List.takeWhile_cons, this]
  | cons c t ih =>
    have hc := hl c (by simp)
    rw [List.cons_append, List.takeWhile_cons_of_pos hc, ih (fun x hx => hl x (by simp [hx]))]

/-- `dropWhile isDigit` over an all-digit run followed by a non-digit
boundary drops exactly the run. -/
theorem dropWhile_digits_append {l r : List Char} (hl : ∀ c ∈ l, c.isDigit = true)
    (hr : ∀ c, r.head? = some c → c.isDigit = false) :
    (l ++ r).dropWhile Char.isDigit = r := by
  induction l with
  | nil =>
    cases r with
    | nil => rfl
    | cons c t =>
      have := hr c rfl
      simp [List.dropWhile_cons, this]
  | cons c t ih =>
    have hc := hl c (by simp)
    rw [List.cons_append, List.dropWhile_cons_of_pos hc]
    exact ih (fun x hx => hl x (by simp [hx]))

/-- A span over an all-digit run followed by a non-digit boundary splits at
the boundary. -/
theorem span_digits_append {l r : List Char} (hl : ∀ c ∈ l, c.isDigit = true)
    (hr : ∀ c, r.head? = some c → c.isDigit = false) :
    List.span Char.isDigit (l ++ r) = (l, r) := by
  rw [List.span_eq_take_drop, takeWhile_digits_append hl hr, dropWhile_digits_append hl hr]

/-- Decomposition of an arbitrary span result. -/
theorem span_spec {cs a b : List Char} (h : List.span Char.isDigit cs = (a, b)) :
    cs = a ++ b ∧ (∀ c ∈ a, c.isDigit = true) ∧
      ∀ c, b.head? = some c → c.isDigit = false := by
  rw [List.span_eq_take_drop, Prod.mk.injEq] at h
  obtain ⟨ha, hb⟩ := h
  refine ⟨by rw [← ha, ← hb, List.takeWhile_append_dropWhile], ?_, ?_⟩
  · intro c hc
    exact List.mem_takeWhile_imp (ha ▸ hc)
  · intro c hc
    cases hb' : cs.dropWhile Char.isDigit with
    | nil => rw [← hb, hb'] at hc; simp at hc
    | cons x t =>
      rw [← hb, hb'] at hc
      simp only [List.head?_cons, Option.some.injEq] at hc
      exact hc ▸ dropWhile_head_not hb'

/-! ### Parser: soundness and completeness against the grammar -/

/-- `parseFrac` accepts every well-formed fraction rendering. -/
theorem parseFrac_complete {fr : Option (Char × List Char)} (h : fracWF fr) :
    parseFrac (fracRender fr) = some fr := by
  cases fr with
  | none => rfl
  | some p =>
    obtain ⟨sep, ds⟩ := p
    obtain ⟨h1, h2, h3, h4⟩ := h
    simp only [fracRender, parseFrac]
    rw [if_pos]
    exact ⟨h1, h2, h3, List.all_eq_true.mpr h4⟩

/-- `parseFrac` only accepts well-formed fraction renderings. -/
theorem parseFrac_sound {cs : List Char} {fr : Option (Char × List Char)}
    (h : parseFrac cs = some fr) : cs = fracRender fr ∧ fracWF fr := by
  cases cs with
  | nil =>
    cases h
    exact ⟨rfl, trivial⟩
  | cons c ds =>
    simp only [parseFrac] at h
    split_ifs at h with hc
    · cases h
      obtain ⟨h1, h2, h3, h4⟩ := hc
      exact ⟨rfl, h1, h2, h3, List.all_eq_true.mp h4⟩

/-- Non-digit boundary fact used for span splits at `':'`. -/
theorem head_colon_not_digit (X : List Char) :
    ∀ c, (':' :: X).head? = some c → c.isDigit = false := by
  intro c hc
  simp only [List.head?_cons, Option.some.injEq] at hc
  subst hc
  rfl

/-- `parseHMSF` accepts every well-formed rendering of its fields. -/
theorem parseHMSF_complete {hh mm ss : List Char} {fr : Option (Char × List Char)}
    (h1 : hh ≠ []) (h2 : hh.length ≤ 2) (h3 : ∀ c ∈ hh, c.isDigit = true)
    (m1 : mm.length = 2) (m2 : ∀ c ∈ mm, c.isDigit = true)
    (s1 : ss.length = 2) (s2 : ∀ c ∈ ss, c.isDigit = true)
    (hf : fracWF fr) :
    parseHMSF (hh ++ ':' :: (mm ++ ':' :: (ss ++ fracRender fr))) = some (hh, mm, ss, fr) := by
  obtain ⟨a, b, rfl⟩ := List.length_eq_two.mp m1
  obtain ⟨d, e, rfl⟩ := List.length_eq_two.mp s1
  have hspan := span_digits_append (r := ':' :: ([a, b] ++ ':' :: ([d, e] ++ fracRender fr)))
    h3 (head_colon_not_digit _)
  have hlen : hh.length = 1 ∨ hh.length = 2 := by
    have := List.length_pos.mpr h1
    omega
  simp only [List.cons_append, List.nil_append] at hspan
  simp only [parseHMSF, List.cons_append, List.nil_append, hspan, parseFrac_complete hf]
  rw [if_pos hlen,
    if_pos ⟨m2 a (by simp), m2 b (by simp), s2 d (by simp), s2 e (by simp)⟩]

/-- `parseHMSF` rejects a two-field rendering `MM:SS[.frac]`: after consuming
the two fields there is no third `':'`-separated field to fill the grammar. -/
theorem parseHMSF_two_fields {mm ss : List Char} {fr : Option (Char × List Char)}
    (m1 : mm.length = 2) (m2 : ∀ c ∈ mm, c.isDigit = true)
    (s1 : ss.length = 2) (hf : fracWF fr) :
    parseHMSF (mm ++ ':' :: (ss ++ fracRender fr)) = none := by
  obtain ⟨a, b, rfl⟩ := List.length_eq_two.mp m1
  obtain ⟨d, e, rfl⟩ := List.length_eq_two.mp s1
  cases fr with
  | none =>
    have hspan := span_digits_append (r := ':' :: ([d, e] ++ fracRender none))
      m2 (head_colon_not_digit _)
    simp only [fracRender, List.append_nil, List.cons_append, List.nil_append] at hspan
    simp only [parseHMSF, fracRender, List.append_nil, List.cons_append, List.nil_append, hspan]
    rw [if_pos (by simp)]
  | some p =>
    obtain ⟨sep, ds⟩ := p
    rcases hf.1 with rfl | rfl
    · have hspan := span_digits_append (r := ':' :: ([d, e] ++ '.' :: ds))
        m2 (head_colon_not_digit _)
      simp only [List.cons_append, List.nil_append] at hspan
      simp only [parseHMSF, fracRender, List.cons_append, List.nil_append, hspan]
      rw [if_pos (by simp)]
      rfl
    · have hspan := span_digits_append (r := ':' :: ([d, e] ++ ',' :: ds))
        m2 (head_colon_not_digit _)
      simp only [List.cons_append, List.nil_append] at hspan
      simp only [parseHMSF, fracRender, List.cons_append, List.nil_append, hspan]
      rw [if_pos (by simp)]
      rfl

/-- `parseHMSF` only accepts well-formed renderings. -/
theorem parseHMSF_sound {cs : List Char} {hh mm ss : List Char}
    {fr : Option (Char × List Char)} (h : parseHMSF cs = some (hh, mm, ss, fr)) :
    cs = hh ++ ':' :: (mm ++ ':' :: (ss ++ fracRender fr)) ∧
    hh ≠ [] ∧ hh.length ≤ 2 ∧ (∀ c ∈ hh, c.isDigit = true) ∧
    mm.length = 2 ∧ (∀ c ∈ mm, c.isDigit = true) ∧
    ss.length = 2 ∧ (∀ c ∈ ss, c.isDigit = true) ∧ fracWF fr := by
  unfold parseHMSF at h
  split at h
  · rename_i hh0 rest0 heq
    split_ifs at h with hlen
    split at h
    · rename_i m1c m2c s1c s2c rest2
      split_ifs at h with hdig
      split at h
      · rename_i fr' hfr
        obtain ⟨hcs, hadig, hbh⟩ := span_spec heq
        obtain ⟨hr2, hfwf⟩ := parseFrac_sound hfr
        cases h
        subst hr2
        have hne : hh ≠ [] := by
          intro hnil
          rw [hnil] at hlen
          simp at hlen
        refine ⟨by simpa using hcs, hne, by omega, hadig, rfl, ?_, rfl, ?_, hfwf⟩
        · intro c hc
          rcases List.mem_cons.mp hc with rfl | hc
          · exact hdig.1
          · rcases List.mem_cons.mp hc with rfl | hc
            · exact hdig.2.1
            · simp at hc
        · intro c hc
          rcases List.mem_cons.mp hc with rfl | hc
          · exact hdig.2.2.1
          · rcases List.mem_cons.mp hc with rfl | hc
            · exact hdig.2.2.2
            · simp at hc
      · exact absurd h (by simp)
    · exact absurd h (by simp)
  · exact absurd h (by simp)

/-- The days-absent alternative accepts every well-formed no-days rendering. -/
theorem noDaysBranch_complete {hh mm ss : List Char} {fr : Option (Char × List Char)}
    (h1 : hh ≠ []) (h2 : hh.length ≤ 2) (h3 : ∀ c ∈ hh, c.isDigit = true)
    (m1 : mm.length = 2) (m2 : ∀ c ∈ mm, c.isDigit = true)
    (s1 : ss.length = 2) (s2 : ∀ c ∈ ss, c.isDigit = true)
    (hf : fracWF fr) :
    noDaysBranch (hh ++ ':' :: (mm ++ ':' :: (ss ++ fracRender fr)))
      = some ⟨false, none, hh, mm, ss, fr⟩ := by
  rw [noDaysBranch, parseHMSF_complete h1 h2 h3 m1 m2 s1 s2 hf, Option.map_some']

/-- The days-absent alternative only accepts well-formed no-days groups. -/
theorem noDaysBranch_sound {cs : List Char} {g : TSGroups} (h : noDaysBranch cs = some g) :
    g.neg = false ∧ g.days = none ∧ GroupsWF g ∧ cs = bodyRender g := by
  rw [noDaysBranch, Option.map_eq_some'] at h
  obtain ⟨x, hx, hfx⟩ := h
  obtain ⟨hh, mm, ss, fr⟩ := x
  obtain ⟨hcs, hh1, hh2, hh3, m1, m2, s1, s2, hf⟩ := parseHMSF_sound hx
  subst hfx
  exact ⟨rfl, rfl, ⟨trivial, hh1, hh2, hh3, m1, m2, s1, s2, hf⟩,
    by simpa [bodyRender, daysRender] using hcs⟩

/-- The days-present alternative accepts every well-formed days rendering. -/
theorem daysBranch_complete {dd : List Char} {sep : Char} {rest : List Char}
    {hh mm ss : List Char} {fr : Option (Char × List Char)}
    (hd : daysWF (some (dd, sep))) (hp : parseHMSF rest = some (hh, mm, ss, fr)) :
    daysBranch (dd ++ sep :: rest) = some ⟨false, some (dd, sep), hh, mm, ss, fr⟩ := by
  obtain ⟨hd1, hd2, hd3⟩ := hd
  have hnd : ∀ c, (sep :: rest).head? = some c → c.isDigit = false := by
    intro c hc
    simp only [List.head?_cons, Option.some.injEq] at hc
    subst hc
    rcases hd3 with rfl | rfl <;> rfl
  have hspan := span_digits_append (r := sep :: rest) hd2 hnd
  simp only [daysBranch, hspan]
  rw [if_pos ⟨hd1, hd3⟩, hp, Option.map_some']

/-- The days-present alternative rejects every well-formed no-days rendering:
it would have to read the minutes and seconds fields as hours and minutes,
and then finds no third field. -/
theorem daysBranch_no_days {hh mm ss : List Char} {fr : Option (Char × List Char)}
    (h1 : hh ≠ []) (h3 : ∀ c ∈ hh, c.isDigit = true)
    (m1 : mm.length = 2) (m2 : ∀ c ∈ mm, c.isDigit = true)
    (s1 : ss.length = 2) (hf : fracWF fr) :
    daysBranch (hh ++ ':' :: (mm ++ ':' :: (ss ++ fracRender fr))) = none := by
  have hspan := span_digits_append (r := ':' :: (mm ++ ':' :: (ss ++ fracRender fr)))
    h3 (head_colon_not_digit _)
  simp only [daysBranch, hspan]
  rw [if_pos ⟨h1, Or.inl trivial⟩, parseHMSF_two_fields m1 m2 s1 hf, Option.map_none']

/-- The days-present alternative only accepts well-formed days groups. -/
theorem daysBranch_sound {cs : List Char} {g : TSGroups} (h : daysBranch cs = some g) :
    g.neg = false ∧ GroupsWF g ∧ cs = bodyRender g := by
  unfold daysBranch at h
  split at h
  · rename_i dd sep rest heq
    split_ifs at h with hcond
    rw [Option.map_eq_some'] at h
    obtain ⟨x, hx, hfx⟩ := h
    obtain ⟨hh, mm, ss, fr⟩ := x
    obtain ⟨hrest, hh1, hh2, hh3, m1, m2, s1, s2, hf⟩ := parseHMSF_sound hx
    obtain ⟨hcs, hddig, hbh⟩ := span_spec heq
    subst hfx
    refine ⟨rfl, ⟨⟨hcond.1, hddig, hcond.2⟩, hh1, hh2, hh3, m1, m2, s1, s2, hf⟩, ?_⟩
    rw [hcs, hrest]
    simp [bodyRender, daysRender]
  · exact absurd h (by simp)

/-- `matchCore` soundness: a match yields well-formed groups spelling the
input, with the sign not yet set. -/
theorem matchCore_sound {cs : List Char} {g : TSGroups} (h : matchCore cs = some g) :
    g.neg = false ∧ GroupsWF g ∧ cs = bodyRender g := by
  unfold matchCore at h
  split at h
  · rename_i g0 hdb
    cases h
    exact daysBranch_sound hdb
  · obtain ⟨h1, _, h3, h4⟩ := noDaysBranch_sound h
    exact ⟨h1, h3, h4⟩

/-- `matchCore` completeness: every unsigned well-formed rendering matches,
recovering exactly its groups. -/
theorem matchCore_complete {g : TSGroups} (hWF : GroupsWF g) (hneg : g.neg = false) :
    matchCore (bodyRender g) = some g := by
  obtain ⟨neg, days, hh, mm, ss, fr⟩ := g
  obtain ⟨hd, hh1, hh2, hh3, m1, m2, s1, s2, hf⟩ := hWF
  simp only at hd hh1 hh2 hh3 m1 m2 s1 s2 hf
  simp only at hneg
  subst hneg
  cases days with
  | none =>
    have hbody : bodyRender ⟨false, none, hh, mm, ss, fr⟩
        = hh ++ ':' :: (mm ++ ':' :: (ss ++ fracRender fr)) := by
      simp [bodyRender, daysRender]
    rw [matchCore, hbody, daysBranch_no_days hh1 hh3 m1 m2 s1 hf,
      noDaysBranch_complete hh1 hh2 hh3 m1 m2 s1 s2 hf]
  | some p =>
    obtain ⟨dd, sep⟩ := p
    have hbody : bodyRender ⟨false, some (dd, sep), hh, mm, ss, fr⟩
        = dd ++ sep :: (hh ++ ':' :: (mm ++ ':' :: (ss ++ fracRender fr))) := by
      simp [bodyRender, daysRender]
    rw [matchCore, hbody,
      daysBranch_complete hd (parseHMSF_complete hh1 hh2 hh3 m1 m2 s1 s2 hf)]

/-- `pureMatch` on a string that does not start with `'-'` skips the sign. -/
theorem pureMatch_cons_of_ne {c : Char} {rest : List Char} (h : c ≠ '-') :
    pureMatch (c :: rest) = matchCore (c :: rest) := by
  unfold pureMatch
  split
  · rename_i rest' heq
    injection heq with h1 _
    exact absurd h1 h
  · rfl

/-- `pureMatch` on a string starting with `'-'` sets the sign on the match
of the remainder. -/
theorem pureMatch_cons_dash (rest : List Char) :
    pureMatch ('-' :: rest) = (matchCore rest).map
      fun g => ⟨true, g.days, g.hours, g.minutes, g.seconds, g.fraction⟩ := rfl

/-- The unsigned body of well-formed groups starts with a digit. -/
theorem bodyRender_head_digit {g : TSGroups} (hWF : GroupsWF g) :
    ∃ c rest, bodyRender g = c :: rest ∧ c.isDigit = true := by
  obtain ⟨neg, days, hh, mm, ss, fr⟩ := g
  obtain ⟨hd, hh1, hh2, hh3, m1, m2, s1, s2, hf⟩ := hWF
  simp only at hd hh1 hh3
  cases days with
  | none =>
    obtain ⟨c, t, hct⟩ := List.exists_cons_of_ne_nil hh1
    refine ⟨c, t ++ ':' :: (mm ++ ':' :: (ss ++ fracRender fr)), ?_, ?_⟩
    · simp [bodyRender, daysRender, hct]
    · exact hh3 c (by simp [hct])
  | some p =>
    obtain ⟨dd, sep⟩ := p
    obtain ⟨hd1, hd2, hd3⟩ := hd
    obtain ⟨c, t, hct⟩ := List.exists_cons_of_ne_nil hd1
    refine ⟨c, (t ++ [sep]) ++ (hh ++ ':' :: (mm ++ ':' :: (ss ++ fracRender fr))), ?_, ?_⟩
    · simp [bodyRender, daysRender, hct]
    · exact hd2 c (by simp [hct])

/-- `pureMatch` completeness: every well-formed rendering matches, recovering
exactly its groups. -/
theorem pureMatch_complete {g : TSGroups} (hWF : GroupsWF g) :
    pureMatch (renderGroups g) = some g := by
  cases hneg : g.neg with
  | true =>
    have hr : renderGroups g = '-' :: bodyRender g := by
      simp [renderGroups, hneg]
    rw [hr, pureMatch_cons_dash]
    have hcore := matchCore_complete (g := ⟨false, g.days, g.hours, g.minutes, g.seconds,
      g.fraction⟩) hWF rfl
    have hbody : bodyRender (⟨false, g.days, g.hours, g.minutes, g.seconds, g.fraction⟩
        : TSGroups) = bodyRender g := by
      simp [bodyRender]
    rw [hbody] at hcore
    rw [hcore, Option.map_some']
    cases g
    simp only at hneg
    subst hneg
    rfl
  | false =>
    have hr : renderGroups g = bodyRender g := by
      simp [renderGroups, hneg]
    obtain ⟨c, rest, hcr, hcd⟩ := bodyRender_head_digit hWF
    have hcne : c ≠ '-' := by
      intro hc
      subst hc
      simp at hcd
    rw [hr, hcr, pureMatch_cons_of_ne hcne, ← hcr]
    exact matchCore_complete hWF hneg

/-- `pureMatch` soundness: a match yields well-formed groups spelling the
whole input. -/
theorem pureMatch_sound {cs : List Char} {g : TSGroups} (h : pureMatch cs = some g) :
    GroupsWF g ∧ cs = renderGroups g := by
  unfold pureMatch at h
  split at h
  · rename_i rest
    rw [Option.map_eq_some'] at h
    obtain ⟨g0, hg0, hfg⟩ := h
    obtain ⟨hneg, hWF, hbody⟩ := matchCore_sound hg0
    subst hfg
    constructor
    · exact hWF
    · rw [hbody]
      simp [renderGroups, bodyRender]
  · rename_i hne
    obtain ⟨hneg, hWF, hbody⟩ := matchCore_sound h
    refine ⟨hWF, ?_⟩
    rw [renderGroups, hneg]
    simpa using hbody

/-! ### The formatter's output decomposed as grammar groups -/

/-- `delta`-derived hours are below 24. -/
theorem usHours_le (μ : ℕ) : usHours μ ≤ 23 := by
  unfold usHours usSecs
  omega

/-- `delta`-derived minutes are below 60. -/
theorem usMinutes_le (μ : ℕ) : usMinutes μ ≤ 59 := by
  unfold usMinutes usSecs
  omega

/-- `delta`-derived seconds are below 60. -/
theorem usSeconds_le (μ : ℕ) : usSeconds μ ≤ 59 := by
  unfold usSeconds usSecs
  omega

/-- The tick fraction is below `10^7` (it is ten times the microseconds). -/
theorem usTicks_le (μ : ℕ) : usTicks μ ≤ 9999990 := by
  unfold usTicks usMicro
  omega

/-- A digit string with a positive value contains a nonzero digit. -/
theorem exists_ne_zero_of_digitsVal_pos {l : List Char} (h : 0 < digitsVal l) :
    ∃ c ∈ l, c ≠ '0' := by
  by_contra hc
  push_neg at hc
  have hrep : l = List.replicate l.length '0' :=
    List.eq_replicate_of_mem fun b hb => hc b hb
  rw [hrep, digitsVal_replicate_zero] at h
  exact absurd h (by simp)

/-- Length of a padded string, in general. -/
theorem zfill_length_eq (w : ℕ) (l : List Char) : (zfill w l).length = max w l.length := by
  simp [zfill]
  omega

/-- The days segment is the rendering of the days group. -/
theorem daysPartUS_eq (spec : Specifier) (μ : ℕ) :
    daysPartUS spec μ = daysRender ((formatGroups spec μ).days) := by
  simp only [daysPartUS, formatGroups]
  split_ifs <;> simp [daysRender]

/-- The tick digits of the fraction group have a positive value in the `g`
branch that strips zeros. -/
theorem fracDigits_pos {μ : ℕ} (h : 0 < usTicks μ) :
    ∃ c ∈ zfill 7 (natChars (usTicks μ)), c ≠ '0' := by
  apply exists_ne_zero_of_digitsVal_pos
  rw [digitsVal_zfill, natChars_val]
  exact h

/-- The fraction segment is the rendering of the fraction group. -/
theorem fracPartUS_eq (spec : Specifier) (μ : ℕ) :
    fracPartUS spec μ = fracRender ((formatGroups spec μ).fraction) := by
  cases spec with
  | c =>
    simp only [fracPartUS, formatGroups]
    by_cases h1 : 0 < usTicks μ ∨ Specifier.c = Specifier.G
    · rw [if_pos h1, if_pos h1]
      simp [fracRender]
    · rw [if_neg h1, if_neg h1]
      simp [fracRender]
  | G =>
    simp [fracPartUS, formatGroups, fracRender]
  | g =>
    simp only [fracPartUS, formatGroups]
    by_cases h1 : 0 < usTicks μ ∨ Specifier.g = Specifier.G
    · rw [if_pos h1, if_pos h1]
      have hf : 0 < usTicks μ := by
        rcases h1 with h | h
        · exact h
        · exact absurd h (by decide)
      obtain ⟨heq, _⟩ := rstripZeros_cons (x := NUMBER_DECIMAL_SEPARATOR) (fracDigits_pos hf)
      simpa [fracRender] using heq
    · rw [if_neg h1, if_neg h1]
      simp [fracRender]

/-- The formatter's body is the rendering of its groups. -/
theorem coreBody_eq (spec : Specifier) (μ : ℕ) :
    coreBody spec μ = bodyRender (formatGroups spec μ) := by
  rw [coreBody, bodyRender, daysPartUS_eq, fracPartUS_eq]
  rfl

/-- The formatter's groups are well-formed for the grammar. -/
theorem formatGroups_WF (spec : Specifier) (μ : ℕ) : GroupsWF (formatGroups spec μ) := by
  have hhl : (natChars (usHours μ)).length ≤ 2 := by
    refine natChars_length_le ?_ (by norm_num)
    have := usHours_le μ
    omega
  have hml : (natChars (usMinutes μ)).length ≤ 2 := by
    refine natChars_length_le ?_ (by norm_num)
    have := usMinutes_le μ
    omega
  have hsl : (natChars (usSeconds μ)).length ≤ 2 := by
    refine natChars_length_le ?_ (by norm_num)
    have := usSeconds_le μ
    omega
  have hfl : (natChars (usTicks μ)).length ≤ 7 := by
    refine natChars_length_le ?_ (by norm_num)
    have := usTicks_le μ
    omega
  refine ⟨?_, ?_, ?_, ?_, ?_, ?_, ?_, ?_, ?_⟩
  · simp only [formatGroups]
    by_cases h1 : 0 < usDays μ ∨ spec = Specifier.G
    · rw [if_pos h1]
      exact ⟨natChars_ne_nil _, natChars_digits _, by cases spec <;> simp⟩
    · rw [if_neg h1]
      trivial
  · exact zfill_ne_nil (natChars_ne_nil _)
  · simp only [formatGroups, hourStrUS]
    rw [zfill_length_eq]
    split_ifs <;> omega
  · exact zfill_digits (natChars_digits _)
  · simp only [formatGroups, minuteStrUS]
    rw [zfill_length_eq]
    omega
  · exact zfill_digits (natChars_digits _)
  · simp only [formatGroups, secondStrUS]
    rw [zfill_length_eq]
    omega
  · exact zfill_digits (natChars_digits _)
  · simp only [formatGroups]
    by_cases h1 : 0 < usTicks μ ∨ spec = Specifier.G
    · rw [if_pos h1]
      by_cases h2 : spec = Specifier.g
      · rw [if_pos h2]
        have hf : 0 < usTicks μ := by
          rcases h1 with h | h
          · exact h
          · rw [h2] at h
            exact absurd h (by decide)
        obtain ⟨k, hk⟩ := rstripZeros_spec (zfill 7 (natChars (usTicks μ)))
        obtain ⟨_, hne⟩ := rstripZeros_cons (x := '0') (fracDigits_pos hf)
        refine ⟨by cases spec <;> simp [NUMBER_DECIMAL_SEPARATOR], hne, ?_, ?_⟩
        · have hz : (zfill 7 (natChars (usTicks μ))).length = 7 := zfill_length hfl
          have hlen := congrArg List.length hk
          rw [List.length_append] at hlen
          omega
        · intro c hc
          exact zfill_digits (natChars_digits _) c (mem_of_mem_rstripZeros hc)
      · rw [if_neg h2]
        exact ⟨by cases spec <;> simp [NUMBER_DECIMAL_SEPARATOR],
          zfill_ne_nil (natChars_ne_nil _), le_of_eq (zfill_length hfl),
          zfill_digits (natChars_digits _)⟩
    · rw [if_neg h1]
      trivial

/-! ### Parsing the formatter's own output -/

/-- Reconstruction of the stored microseconds from the decomposition. -/
theorem us_reconstruct (μ : ℕ) :
    (usDays μ * 86400 + usHours μ * 3600 + usMinutes μ * 60 + usSeconds μ) * 1000000
      + usMicro μ = μ := by
  unfold usDays usHours usMinutes usSeconds usSecs usMicro
  omega

/-- Hours field of the output parses back to the hours value. -/
theorem hourStrUS_val (spec : Specifier) (μ : ℕ) :
    digitsVal (hourStrUS spec μ) = usHours μ := by
  rw [hourStrUS, digitsVal_zfill, natChars_val]

/-- Minutes field of the output parses back to the minutes value. -/
theorem minuteStrUS_val (μ : ℕ) : digitsVal (minuteStrUS μ) = usMinutes μ := by
  rw [minuteStrUS, digitsVal_zfill, natChars_val]

/-- Seconds field of the output parses back to the seconds value. -/
theorem secondStrUS_val (μ : ℕ) : digitsVal (secondStrUS μ) = usSeconds μ := by
  rw [secondStrUS, digitsVal_zfill, natChars_val]

/-- Days field of the output parses back to the days value. -/
theorem formatGroups_daysVal (spec : Specifier) (μ : ℕ) :
    digitsVal (daysDigits ((formatGroups spec μ).days)) = usDays μ := by
  simp only [formatGroups]
  by_cases h1 : 0 < usDays μ ∨ spec = Specifier.G
  · rw [if_pos h1]
    simp [daysDigits, natChars_val]
  · rw [if_neg h1]
    push_neg at h1
    have hz : usDays μ = 0 := by omega
    rw [hz]
    rfl

/-- Fraction field of the output parses back (through Python `float`) to the
tick fraction over `10^7`; in particular the separator is never a comma. -/
theorem formatGroups_fractionVal (spec : Specifier) (μ : ℕ) :
    fractionVal ((formatGroups spec μ).fraction) = some ((usTicks μ : ℚ) / 10 ^ 7) := by
  have hfl : (natChars (usTicks μ)).length ≤ 7 := by
    refine natChars_length_le ?_ (by norm_num)
    have := usTicks_le μ
    omega
  have hsep : (if spec = Specifier.c then '.' else NUMBER_DECIMAL_SEPARATOR) = '.' := by
    cases spec <;> simp [NUMBER_DECIMAL_SEPARATOR]
  simp only [formatGroups]
  by_cases h1 : 0 < usTicks μ ∨ spec = Specifier.G
  · rw [if_pos h1]
    by_cases h2 : spec = Specifier.g
    · rw [if_pos h2]
      have hf : 0 < usTicks μ := by
        rcases h1 with h | h
        · exact h
        · rw [h2] at h
          exact absurd h (by decide)
      simp only [fractionVal, hsep]
      rw [if_neg (by decide)]
      rw [rstripZeros_fracVal, digitsVal_zfill, natChars_val, zfill_length hfl]
    · rw [if_neg h2]
      simp only [fractionVal, hsep]
      rw [if_neg (by decide)]
      rw [digitsVal_zfill, natChars_val, zfill_length hfl]
  · rw [if_neg h1]
    push_neg at h1
    have hz : usTicks μ = 0 := by omega
    simp [fractionVal, hz]

/-- Closed form of `groupsSeconds` when the fraction value is a whole number
of microseconds (as it always is for the formatter's own output): the sign
distributes over an exact integer count of microseconds. -/
theorem groupsSeconds_eval (g : TSGroups) (fq : ℚ) (k : ℕ)
    (hfq : fq * 1000000 = (k : ℚ)) :
    groupsSeconds g fq
      = (if g.neg = true then (-1 : ℚ) else 1)
        * (((digitsVal (daysDigits g.days) * 86400 + digitsVal g.hours * 3600
            + digitsVal g.minutes * 60 + digitsVal g.seconds) * 1000000 + k : ℕ) : ℚ)
        / 1000000 := by
  simp only [groupsSeconds]
  cases hb : g.neg
  · simp only [hb, Bool.false_eq_true, if_false]
    have harg : (((1 * (digitsVal g.seconds : ℤ) : ℤ) : ℚ) + ((1 : ℤ) : ℚ) * fq) * 1000000
        = (((digitsVal g.seconds * 1000000 + k : ℕ) : ℤ) : ℚ) := by
      push_cast
      linear_combination hfq
    rw [harg, roundHalfEven_intCast]
    push_cast
    ring
  · simp only [hb, if_true]
    have harg : (((-1 * (digitsVal g.seconds : ℤ) : ℤ) : ℚ) + ((-1 : ℤ) : ℚ) * fq) * 1000000
        = (((-(digitsVal g.seconds * 1000000 + k : ℕ) : ℤ)) : ℚ) := by
      push_cast
      linear_combination (-1 : ℚ) * hfq
    rw [harg, roundHalfEven_intCast]
    push_cast
    ring


/-- A character failing the digit predicate is not in an all-digit list. -/
theorem not_mem_digit_list {c : Char} (hc : c.isDigit = false) {l : List Char}
    (hl : ∀ x ∈ l, x.isDigit = true) : c ∉ l := fun hmem => by
  rw [hl c hmem] at hc
  cases hc

/-- A character that is not a digit, a separator, a sign, or the fraction
separator does not occur in a well-formed rendering. -/
theorem not_mem_renderGroups {g : TSGroups} (hWF : GroupsWF g) {c : Char}
    (h1 : c.isDigit = false) (h2 : c ≠ ':') (h3 : c ≠ '.') (h4 : c ≠ '-')
    (h5 : ∀ ds, g.fraction ≠ some (c, ds)) : c ∉ renderGroups g := by
  obtain ⟨neg, days, hh, mm, ss, fr⟩ := g
  obtain ⟨hd, hh1, hh2, hh3, m1, m2, s1, s2, hf⟩ := hWF
  simp only at hd hh3 m2 s2 hf h5
  intro hc
  cases neg with
  | false =>
    cases days with
    | none =>
      cases fr with
      | none =>
        simp only [renderGroups, bodyRender, daysRender, fracRender, List.append_nil,
          List.nil_append, List.mem_append, List.mem_cons, if_neg (by simp : ¬(false = true)),
          List.not_mem_nil] at hc
        casesm* _ ∨ _
        all_goals first
          | exact not_mem_digit_list h1 hh3 ‹_›
          | exact not_mem_digit_list h1 m2 ‹_›
          | exact not_mem_digit_list h1 s2 ‹_›
          | exact h2 ‹_›
          | exact ‹False›
      | some p =>
        obtain ⟨fsep, fds⟩ := p
        simp only [renderGroups, bodyRender, daysRender, fracRender, List.append_nil,
          List.nil_append, List.mem_append, List.mem_cons, if_neg (by simp : ¬(false = true)),
          List.not_mem_nil] at hc
        casesm* _ ∨ _
        all_goals first
          | exact not_mem_digit_list h1 hh3 ‹_›
          | exact not_mem_digit_list h1 m2 ‹_›
          | exact not_mem_digit_list h1 s2 ‹_›
          | exact not_mem_digit_list h1 hf.2.2.2 ‹_›
          | exact h2 ‹_›
          | exact h5 fds (by rw [‹c = fsep›])
          | exact ‹False›
    | some p =>
      obtain ⟨dd, sep⟩ := p
      obtain ⟨hd1, hd2, hd3⟩ := hd
      rcases hd3 with rfl | rfl <;>
      · cases fr with
        | none =>
          simp only [renderGroups, bodyRender, daysRender, fracRender, List.append_nil,
            List.nil_append, List.mem_append, List.mem_cons, List.mem_singleton,
            if_neg (by simp : ¬(false = true)), List.not_mem_nil] at hc
          casesm* _ ∨ _
          all_goals first
            | exact not_mem_digit_list h1 hh3 ‹_›
            | exact not_mem_digit_list h1 m2 ‹_›
            | exact not_mem_digit_list h1 s2 ‹_›
            | exact not_mem_digit_list h1 hd2 ‹_›
            | exact h2 ‹_›
            | exact h3 ‹_›
            | exact ‹False›
        | some p2 =>
          obtain ⟨fsep, fds⟩ := p2
          simp only [renderGroups, bodyRender, daysRender, fracRender, List.append_nil,
            List.nil_append, List.mem_append, List.mem_cons, List.mem_singleton,
            if_neg (by simp : ¬(false = true)), List.not_mem_nil] at hc
          casesm* _ ∨ _
          all_goals first
            | exact not_mem_digit_list h1 hh3 ‹_›
            | exact not_mem_digit_list h1 m2 ‹_›
            | exact not_mem_digit_list h1 s2 ‹_›
            | exact not_mem_digit_list h1 hd2 ‹_›
            | exact not_mem_digit_list h1 hf.2.2.2 ‹_›
            | exact h2 ‹_›
            | exact h3 ‹_›
            | exact h5 fds (by rw [‹c = fsep›])
            | exact ‹False›
  | true =>
    cases days with
    | none =>
      cases fr with
      | none =>
        simp only [renderGroups, bodyRender, daysRender, fracRender, List.append_nil,
          List.nil_append, List.mem_append, List.mem_cons, if_pos rfl, if_true,
          List.not_mem_nil] at hc
        casesm* _ ∨ _
        all_goals first
          | exact not_mem_digit_list h1 hh3 ‹_›
          | exact not_mem_digit_list h1 m2 ‹_›
          | exact not_mem_digit_list h1 s2 ‹_›
          | exact h2 ‹_›
          | exact h4 ‹_›
          | exact ‹False›
      | some p =>
        obtain ⟨fsep, fds⟩ := p
        simp only [renderGroups, bodyRender, daysRender, fracRender, List.append_nil,
          List.nil_append, List.mem_append, List.mem_cons, if_pos rfl, if_true,
          List.not_mem_nil] at hc
        casesm* _ ∨ _
        all_goals first
          | exact not_mem_digit_list h1 hh3 ‹_›
          | exact not_mem_digit_list h1 m2 ‹_›
          | exact not_mem_digit_list h1 s2 ‹_›
          | exact not_mem_digit_list h1 hf.2.2.2 ‹_›
          | exact h2 ‹_›
          | exact h4 ‹_›
          | exact h5 fds (by rw [‹c = fsep›])
          | exact ‹False›
    | some p =>
      obtain ⟨dd, sep⟩ := p
      obtain ⟨hd1, hd2, hd3⟩ := hd
      rcases hd3 with rfl | rfl <;>
      · cases fr with
        | none =>
          simp only [renderGroups, bodyRender, daysRender, fracRender, List.append_nil,
            List.nil_append, List.mem_append, List.mem_cons, List.mem_singleton,
            if_pos rfl, if_true, List.not_mem_nil] at hc
          casesm* _ ∨ _
          all_goals first
            | exact not_mem_digit_list h1 hh3 ‹_›
            | exact not_mem_digit_list h1 m2 ‹_›
            | exact not_mem_digit_list h1 s2 ‹_›
            | exact not_mem_digit_list h1 hd2 ‹_›
            | exact h2 ‹_›
            | exact h3 ‹_›
            | exact h4 ‹_›
            | exact ‹False›
        | some p2 =>
          obtain ⟨fsep, fds⟩ := p2
          simp only [renderGroups, bodyRender, daysRender, fracRender, List.append_nil,
            List.nil_append, List.mem_append, List.mem_cons, List.mem_singleton,
            if_pos rfl, if_true, List.not_mem_nil] at hc
          casesm* _ ∨ _
          all_goals first
            | exact not_mem_digit_list h1 hh3 ‹_›
            | exact not_mem_digit_list h1 m2 ‹_›
            | exact not_mem_digit_list h1 s2 ‹_›
            | exact not_mem_digit_list h1 hd2 ‹_›
            | exact not_mem_digit_list h1 hf.2.2.2 ‹_›
            | exact h2 ‹_›
            | exact h3 ‹_›
            | exact h4 ‹_›
            | exact h5 fds (by rw [‹c = fsep›])
            | exact ‹False›

/-- A last character is a member. -/
theorem getLast?_mem {l : List Char} {c : Char} (h : l.getLast? = some c) : c ∈ l := by
  obtain ⟨hne, heq⟩ := List.mem_getLast?_eq_getLast h
  rw [heq]
  exact List.getLast_mem hne

/-- No newline occurs in a well-formed rendering. -/
theorem renderGroups_no_newline {g : TSGroups} (hWF : GroupsWF g) :
    '\n' ∉ renderGroups g := by
  refine not_mem_renderGroups hWF (by decide) (by decide) (by decide) (by decide) ?_
  intro ds heq
  have hfw := hWF.2.2.2.2.2.2.2.2
  rw [heq] at hfw
  rcases hfw.1 with h | h <;> exact absurd h (by decide)

/-- Python's `$`-newline tolerance is inert on a well-formed rendering. -/
theorem stripTrailingNL_renderGroups {g : TSGroups} (hWF : GroupsWF g) :
    stripTrailingNL (renderGroups g) = renderGroups g := by
  rw [stripTrailingNL, if_neg]
  intro hlast
  exact renderGroups_no_newline hWF (getLast?_mem hlast)

/-- The compiled pattern recovers the groups of any well-formed rendering. -/
theorem reMatch_renderGroups {g : TSGroups} (hWF : GroupsWF g) :
    reMatch (renderGroups g) = some g := by
  rw [reMatch, stripTrailingNL_renderGroups hWF, pureMatch_complete hWF]

/-- Parsing the formatter's output recovers exactly the microseconds the
formatter stored, with the formatter's sign. -/
theorem from_string_to_string_core (v : Specifier) (u : ℚ) :
    from_string (to_string_core v u)
      = some (if u < 0 then -((tdUS u : ℚ) / 1000000) else (tdUS u : ℚ) / 1000000) := by
  classical
  have hWFG : GroupsWF (⟨decide (u < 0), (formatGroups v (tdUS u)).days,
      (formatGroups v (tdUS u)).hours, (formatGroups v (tdUS u)).minutes,
      (formatGroups v (tdUS u)).seconds, (formatGroups v (tdUS u)).fraction⟩ : TSGroups) :=
    formatGroups_WF v (tdUS u)
  have hts : to_string_core v u = renderGroups ⟨decide (u < 0), (formatGroups v (tdUS u)).days,
      (formatGroups v (tdUS u)).hours, (formatGroups v (tdUS u)).minutes,
      (formatGroups v (tdUS u)).seconds, (formatGroups v (tdUS u)).fraction⟩ := by
    rw [to_string_core, coreBody_eq, renderGroups]
    congr 1
    rw [signPart]
    by_cases hu : u < 0 <;> simp [hu]
  rw [hts, from_string, reMatch_renderGroups hWFG, Option.some_bind]
  have hfq : ((usTicks (tdUS u) : ℚ) / 10 ^ 7) * 1000000 = ((usMicro (tdUS u) : ℕ) : ℚ) := by
    show ((usMicro (tdUS u) * 10 : ℕ) : ℚ) / 10 ^ 7 * 1000000 = _
    push_cast
    ring
  rw [show fractionVal (⟨decide (u < 0), (formatGroups v (tdUS u)).days,
      (formatGroups v (tdUS u)).hours, (formatGroups v (tdUS u)).minutes,
      (formatGroups v (tdUS u)).seconds, (formatGroups v (tdUS u)).fraction⟩
        : TSGroups).fraction = some ((usTicks (tdUS u) : ℚ) / 10 ^ 7) from
    formatGroups_fractionVal v (tdUS u)]
  rw [Option.map_some']
  rw [groupsSeconds_eval _ _ (usMicro (tdUS u)) hfq]
  have hvals : digitsVal (daysDigits (formatGroups v (tdUS u)).days) * 86400
      + digitsVal (formatGroups v (tdUS u)).hours * 3600
      + digitsVal (formatGroups v (tdUS u)).minutes * 60
      + digitsVal (formatGroups v (tdUS u)).seconds
      = usDays (tdUS u) * 86400 + usHours (tdUS u) * 3600 + usMinutes (tdUS u) * 60
        + usSeconds (tdUS u) := by
    rw [formatGroups_daysVal]
    rw [show (formatGroups v (tdUS u)).hours = hourStrUS v (tdUS u) from rfl, hourStrUS_val]
    rw [show (formatGroups v (tdUS u)).minutes = minuteStrUS (tdUS u) from rfl, minuteStrUS_val]
    rw [show (formatGroups v (tdUS u)).seconds = secondStrUS (tdUS u) from rfl, secondStrUS_val]
  simp only [hvals, us_reconstruct]
  by_cases hu : u < 0 <;> simp [hu] <;> ring

/-- A single positional argument contributes plain seconds. -/
theorem timedeltaSeconds_single (t : ℚ) :
    timedeltaSeconds 0 0 0 t 0 = (roundHalfEven (t * 1000000) : ℚ) / 1000000 := by
  rw [timedeltaSeconds]
  norm_num

/-- Stored microseconds of a value already on the microsecond grid. -/
theorem tdUS_int_div (k : ℤ) : tdUS ((k : ℚ) / 1000000) = k.natAbs := by
  rw [tdUS]
  have h1 : |(k : ℚ) / 1000000| * 1000000 = ((|k| : ℤ) : ℚ) := by
    rw [abs_div, abs_of_pos (by norm_num : (0 : ℚ) < 1000000), Int.cast_abs]
    field_simp
  rw [h1, roundHalfEven_intCast, Int.abs_eq_natAbs, Int.toNat_natCast]

/-- Sign of a value on the microsecond grid. -/
theorem int_div_neg (k : ℤ) : ((k : ℚ) / 1000000 < 0) ↔ k < 0 := by
  rw [div_lt_iff (by norm_num : (0 : ℚ) < 1000000)]
  simp

/-- C1.  Round-trip: for every total-seconds value `t` of magnitude up to a
million (indeed any rational), and every variant, formatting `t` and parsing
the result back recovers `t` to strictly better than `1e-6` seconds. -/
theorem claim_C1_roundtrip (t : ℚ) (hmag : |t| ≤ 1000000) (v : Specifier) :
    ∃ s r, to_string v [t] = .ok s ∧ total_seconds s = some r ∧ |r - t| < 1 / 1000000 := by
  clear hmag
  have hargs : args_to_seconds [t] false
      = .ok ((roundHalfEven (t * 1000000) : ℚ) / 1000000) := by
    simp only [args_to_seconds, Bool.false_eq_true, if_false, timedeltaSeconds_single]
  have hu := from_string_to_string_core v ((roundHalfEven (t * 1000000) : ℚ) / 1000000)
  rw [tdUS_int_div] at hu
  have hval : (if ((roundHalfEven (t * 1000000) : ℚ) / 1000000) < 0 then
        -(((roundHalfEven (t * 1000000)).natAbs : ℚ) / 1000000)
      else ((roundHalfEven (t * 1000000)).natAbs : ℚ) / 1000000)
      = (roundHalfEven (t * 1000000) : ℚ) / 1000000 := by
    have hna : (((roundHalfEven (t * 1000000)).natAbs : ℚ)) = |(roundHalfEven (t * 1000000) : ℚ)| := by
      rw [Int.cast_natAbs, Int.cast_abs]
    by_cases hk0 : roundHalfEven (t * 1000000) < 0
    · rw [if_pos ((int_div_neg _).mpr hk0), hna,
        abs_of_neg (by exact_mod_cast hk0 : (roundHalfEven (t * 1000000) : ℚ) < 0)]
      ring
    · push_neg at hk0
      rw [if_neg (by rw [int_div_neg]; omega), hna,
        abs_of_nonneg (by exact_mod_cast hk0 : (0 : ℚ) ≤ (roundHalfEven (t * 1000000) : ℚ))]
  rw [hval] at hu
  refine ⟨to_string_core v ((roundHalfEven (t * 1000000) : ℚ) / 1000000),
    (roundHalfEven (t * 1000000) : ℚ) / 1000000, ?_, ?_, ?_⟩
  · rw [to_string, hargs]
    rfl
  · rw [total_seconds, hu]
  · have hb := abs_roundHalfEven_sub (t * 1000000)
    have hrw : (roundHalfEven (t * 1000000) : ℚ) / 1000000 - t
        = ((roundHalfEven (t * 1000000) : ℚ) - t * 1000000) / 1000000 := by
      ring
    rw [hrw, abs_div, abs_of_pos (by norm_num : (0 : ℚ) < 1000000)]
    calc |(roundHalfEven (t * 1000000) : ℚ) - t * 1000000| / 1000000
        ≤ (1 / 2) / 1000000 := by gcongr
      _ < 1 / 1000000 := by norm_num

/-- Witness for C1 at the concrete duration 1.5 seconds with variant `c`. -/
theorem claim_C1_roundtrip_witness :
    ∃ s r, to_string Specifier.c [(3 : ℚ) / 2] = .ok s ∧ total_seconds s = some r
      ∧ |r - 3 / 2| < 1 / 1000000 :=
  claim_C1_roundtrip (3 / 2) (by rw [abs_le]; constructor <;> norm_num) Specifier.c

/-- Evaluation helper: `timedeltaSeconds` at arguments whose scaled sum is a
whole number of microseconds. -/
theorem timedeltaSeconds_eval (d h m s ms : ℚ) (n : ℕ)
    (hn : (d * 86400 + h * 3600 + m * 60 + s + ms / 1000) * 1000000 = (n : ℚ)) :
    timedeltaSeconds d h m s ms = (n : ℚ) / 1000000 := by
  rw [timedeltaSeconds, hn, roundHalfEven_natCast]
  push_cast
  ring

/-- Evaluation helper: the formatter body on a nonnegative duration with a
known microsecond count. -/
theorem to_string_core_eval (v : Specifier) (u : ℚ) (n : ℕ)
    (hn : u * 1000000 = (n : ℚ)) (hu : 0 ≤ u) :
    to_string_core v u = coreBody v n := by
  rw [to_string_core, signPart, if_neg (by exact not_lt.mpr hu),
    tdUS_eq (by rw [abs_of_nonneg hu, hn])]
  rfl

/-- `Except.map` acts on a success. -/
theorem except_map_ok {ε α β : Type} (f : α → β) (a : α) :
    (Except.ok a : Except ε α).map f = .ok (f a) := rfl

/-- C4.  The spec's literal format/parse scenarios, exactly. -/
theorem claim_C4_literals :
    to_string Specifier.c [0, 30, 0] = .ok ("00:30:00".data) ∧
    total_seconds ("00:30:00".data) = some 1800 ∧
    to_string Specifier.c [3, 17, 25, 30, 500] = .ok ("3.17:25:30.5000000".data) ∧
    to_string Specifier.G [18, 30, 0] = .ok ("0:18:30:00.0000000".data) := by
  refine ⟨?_, ?_, ?_, ?_⟩
  · rw [to_string, show args_to_seconds [0, 30, 0] false
        = .ok (timedeltaSeconds 0 0 30 0 0) from rfl,
      timedeltaSeconds_eval 0 0 30 0 0 1800000000 (by norm_num), except_map_ok,
      to_string_core_eval _ _ 1800000000 (by push_cast; ring) (by positivity)]
    congr 1
  · rw [total_seconds, from_string,
      show reMatch ("00:30:00".data)
        = some ⟨false, none, ['0', '0'], ['3', '0'], ['0', '0'], none⟩ from by decide,
      Option.some_bind,
      show fractionVal (none : Option (Char × List Char)) = some 0 from rfl,
      Option.map_some']
    congr 1
    rw [groupsSeconds_eval _ 0 0 (by norm_num)]
    norm_num [show (digitsVal (daysDigits (none : Option (List Char × Char))) * 86400
      + digitsVal ['0', '0'] * 3600 + digitsVal ['3', '0'] * 60 + digitsVal ['0', '0'] : ℕ)
      = 1800 from by decide]
  · rw [to_string, show args_to_seconds [3, 17, 25, 30, 500] false
        = .ok (timedeltaSeconds 3 17 25 30 500) from rfl,
      timedeltaSeconds_eval 3 17 25 30 500 321930500000 (by norm_num), except_map_ok,
      to_string_core_eval _ _ 321930500000 (by push_cast; ring) (by positivity)]
    congr 1
  · rw [to_string, show args_to_seconds [18, 30, 0] false
        = .ok (timedeltaSeconds 0 18 30 0 0) from rfl,
      timedeltaSeconds_eval 0 18 30 0 0 66600000000 (by norm_num), except_map_ok,
      to_string_core_eval _ _ 66600000000 (by push_cast; ring) (by positivity)]
    congr 1

/-- Value of a single digit string. -/
theorem digitsVal_singleton (c : Char) : digitsVal [c] = digitVal c := by
  rw [digitsVal_cons]
  simp [digitsVal]

/-- Value of a two-digit string. -/
theorem digitsVal_pair (a b : Char) : digitsVal [a, b] = 10 * digitVal a + digitVal b := by
  rw [digitsVal_cons, digitsVal_singleton]
  simp
  ring

/-- C2 (evaluation at the failing input).  The regex accepts a comma-introduced
fraction, but `from_string` then crashes in `float`: `"00:00:00,5"` errors
while `"00:00:00.5"` parses to half a second. -/
theorem claim_C2_comma_eval :
    from_string ("00:00:00,5".data) = none ∧ from_string ("00:00:00.5".data) = some (1 / 2) := by
  constructor
  · rw [from_string,
      show reMatch ("00:00:00,5".data)
        = some ⟨false, none, ['0', '0'], ['0', '0'], ['0', '0'], some (',', ['5'])⟩ from by decide,
      Option.some_bind,
      show fractionVal (some (',', ['5'])) = none from rfl, Option.map_none']
  · rw [from_string,
      show reMatch ("00:00:00.5".data)
        = some ⟨false, none, ['0', '0'], ['0', '0'], ['0', '0'], some ('.', ['5'])⟩ from by decide,
      Option.some_bind,
      show fractionVal (some ('.', ['5']))
        = some ((digitsVal ['5'] : ℚ) / 10 ^ (['5'] : List Char).length) from by
          simp [fractionVal],
      Option.map_some']
    congr 1
    rw [groupsSeconds_eval _ _ 500000 (by
      norm_num [show digitsVal ['5'] = 5 from by decide])]
    norm_num [show (digitsVal (daysDigits (none : Option (List Char × Char))) * 86400
      + digitsVal ['0', '0'] * 3600 + digitsVal ['0', '0'] * 60 + digitsVal ['0', '0'] : ℕ)
      = 0 from by decide]

/-- C10.  Any two-digit minutes and seconds parse, even above 59: the result
is the plain sum `hours*3600 + minutes*60 + seconds` without range checks. -/
theorem claim_C10_lenient_fields (c1 c2 c3 c4 c5 : Char)
    (h1 : c1.isDigit = true) (h2 : c2.isDigit = true) (h3 : c3.isDigit = true)
    (h4 : c4.isDigit = true) (h5 : c5.isDigit = true) :
    from_string [c1, ':', c2, c3, ':', c4, c5]
      = some ((digitVal c1 * 3600 + (10 * digitVal c2 + digitVal c3) * 60
          + (10 * digitVal c4 + digitVal c5) : ℕ)) := by
  have hWF : GroupsWF (⟨false, none, [c1], [c2, c3], [c4, c5], none⟩ : TSGroups) := by
    refine ⟨trivial, by simp, by simp, ?_, by simp, ?_, by simp, ?_, trivial⟩
    · intro c hc
      rw [List.mem_singleton.mp hc]
      exact h1
    · intro c hc
      rcases List.mem_cons.mp hc with rfl | hc
      · exact h2
      · rw [List.mem_singleton.mp hc]
        exact h3
    · intro c hc
      rcases List.mem_cons.mp hc with rfl | hc
      · exact h4
      · rw [List.mem_singleton.mp hc]
        exact h5
  have hrender : renderGroups (⟨false, none, [c1], [c2, c3], [c4, c5], none⟩ : TSGroups)
      = [c1, ':', c2, c3, ':', c4, c5] := by
    simp [renderGroups, bodyRender, daysRender, fracRender]
  rw [from_string, ← hrender, reMatch_renderGroups hWF, Option.some_bind,
    show fractionVal (none : Option (Char × List Char)) = some 0 from rfl, Option.map_some']
  congr 1
  rw [groupsSeconds_eval _ 0 0 (by norm_num)]
  rw [show daysDigits (none : Option (List Char × Char)) = [] from rfl]
  rw [show digitsVal [] = 0 from rfl, digitsVal_singleton, digitsVal_pair, digitsVal_pair]
  push_cast
  ring

/-- Witness for C10 at the out-of-range literal `0:99:99`. -/
theorem claim_C10_witness : from_string ("0:99:99".data) = some 6039 := by
  have h := claim_C10_lenient_fields '0' '9' '9' '9' '9'
    (by decide) (by decide) (by decide) (by decide) (by decide)
  rw [show ("0:99:99".data) = ['0', ':', '9', '9', ':', '9', '9'] from rfl, h]
  norm_num [show (digitVal '0' * 3600 + (10 * digitVal '9' + digitVal '9') * 60
    + (10 * digitVal '9' + digitVal '9') : ℕ) = 6039 from by decide]

/-- C6.  Arity dispatch: construction succeeds for exactly 1, 3, 4 or 5
positional arguments; any other count yields the `ValueError` whose message
names the received count, never a value. -/
theorem claim_C6_arity (b : Bool) (args : List ℚ) :
    ((args_to_seconds args b).isOk = true
      ↔ args.length = 1 ∨ args.length = 3 ∨ args.length = 4 ∨ args.length = 5) ∧
    (args.length ≠ 1 → args.length ≠ 3 → args.length ≠ 4 → args.length ≠ 5 →
      args_to_seconds args b = .error (arityMessage args.length)) := by
  rcases args with _ | ⟨a1, _ | ⟨a2, _ | ⟨a3, _ | ⟨a4, _ | ⟨a5, _ | ⟨a6, rest⟩⟩⟩⟩⟩⟩ <;>
    constructor <;>
    first
      | (simp [args_to_seconds, Except.isOk, Except.toBool])
      | (intro g1 g2 g3 g4
         first
           | rfl
           | exact absurd rfl g1
           | exact absurd rfl g2
           | exact absurd rfl g3
           | exact absurd rfl g4)

/-- Witness for C6 at two arguments: the error names the count 2. -/
theorem claim_C6_arity_witness :
    args_to_seconds [(1 : ℚ), 2] false = .error (arityMessage 2) :=
  (claim_C6_arity false [1, 2]).2 (by decide) (by decide) (by decide) (by decide)

/-- C5 (counterexample).  A legal 4-argument tuple whose exact sum is a tenth
of a microsecond: the code returns 0, not the exact sum. -/
theorem claim_C5_cex :
    args_to_seconds [0, 0, 0, (1 : ℚ) / 10000000] false = .ok 0 ∧
    (0 : ℚ) ≠ 0 * 86400 + 0 * 3600 + 0 * 60 + (1 : ℚ) / 10000000 + 0 / 1000 := by
  constructor
  · rw [show args_to_seconds [0, 0, 0, (1 : ℚ) / 10000000] false
        = .ok (timedeltaSeconds 0 0 0 ((1 : ℚ) / 10000000) 0) from rfl]
    congr 1
    rw [timedeltaSeconds,
      show ((0 : ℚ) * 86400 + 0 * 3600 + 0 * 60 + 1 / 10000000 + 0 / 1000) * 1000000
        = 1 / 10 from by norm_num,
      roundHalfEven_eq_zero (by norm_num) (by norm_num)]
    norm_num
  · norm_num

/-- C5 (amended).  Every legal tuple yields the calendar-agnostic sum
quantized to whole microseconds (half-even), the precision `timedelta`
stores; the result equals the exact sum precisely when that sum is a whole
number of microseconds; a lone argument is seconds, or seconds divided by
`10^7` under `by_ticks`, and 100 ticks give exactly `1e-5` seconds. -/
theorem claim_C5_amended (d h m s ms q : ℚ) :
    (args_to_seconds [d, h, m, s, ms] false
      = .ok ((roundHalfEven ((d * 86400 + h * 3600 + m * 60 + s + ms / 1000) * 1000000) : ℚ)
          / 1000000)) ∧
    (args_to_seconds [h, m, s] false
      = .ok ((roundHalfEven ((h * 3600 + m * 60 + s) * 1000000) : ℚ) / 1000000)) ∧
    (args_to_seconds [d, h, m, s] false
      = .ok ((roundHalfEven ((d * 86400 + h * 3600 + m * 60 + s) * 1000000) : ℚ) / 1000000)) ∧
    (args_to_seconds [q] false = .ok ((roundHalfEven (q * 1000000) : ℚ) / 1000000)) ∧
    (args_to_seconds [q] true
      = .ok ((roundHalfEven (q / 10000000 * 1000000) : ℚ) / 1000000)) ∧
    ((∃ k : ℤ, q * 1000000 = (k : ℚ)) → args_to_seconds [q] false = .ok q) ∧
    args_to_seconds [(100 : ℚ)] true = .ok (1 / 100000) := by
  refine ⟨?_, ?_, ?_, ?_, ?_, ?_, ?_⟩
  · rw [show args_to_seconds [d, h, m, s, ms] false = .ok (timedeltaSeconds d h m s ms) from rfl,
      timedeltaSeconds]
  · rw [show args_to_seconds [h, m, s] false = .ok (timedeltaSeconds 0 h m s 0) from rfl,
      timedeltaSeconds]
    congr 3
    ring
  · rw [show args_to_seconds [d, h, m, s] false = .ok (timedeltaSeconds d h m s 0) from rfl,
      timedeltaSeconds]
    congr 3
    ring
  · rw [show args_to_seconds [q] false = .ok (timedeltaSeconds 0 0 0 q 0) from rfl,
      timedeltaSeconds]
    congr 3
    ring
  · rw [show args_to_seconds [q] true
        = .ok (timedeltaSeconds 0 0 0 (q / TICKS_PER_SECOND) 0) from rfl, timedeltaSeconds]
    congr 3
    rw [TICKS_PER_SECOND]
    ring
  · rintro ⟨k, hk⟩
    rw [show args_to_seconds [q] false = .ok (timedeltaSeconds 0 0 0 q 0) from rfl,
      timedeltaSeconds_single, hk, roundHalfEven_intCast, ← hk]
    congr 1
    field_simp
  · rw [show args_to_seconds [(100 : ℚ)] true
        = .ok (timedeltaSeconds 0 0 0 ((100 : ℚ) / TICKS_PER_SECOND) 0) from rfl,
      timedeltaSeconds_eval 0 0 0 ((100 : ℚ) / TICKS_PER_SECOND) 0 10
        (by rw [TICKS_PER_SECOND]; norm_num)]
    norm_num

/-- Witness for C5 at a whole-microsecond sum: one second is returned
exactly. -/
theorem claim_C5_amended_witness : args_to_seconds [(1 : ℚ)] false = .ok 1 :=
  (claim_C5_amended 0 0 0 0 0 1).2.2.2.2.2.1 ⟨1000000, by norm_num⟩

/-- Sign symmetry of the formatter core: the decomposition only sees
`abs(seconds)`, and the sign test flips. -/
theorem to_string_core_neg (v : Specifier) {u : ℚ} (hu : 0 < u) :
    to_string_core v (-u) = '-' :: to_string_core v u := by
  rw [to_string_core, to_string_core, signPart, signPart,
    if_pos (by linarith : -u < 0), if_neg (by linarith : ¬u < 0),
    show tdUS (-u) = tdUS u from by rw [tdUS, tdUS, abs_neg]]
  rfl

/-- C7 (counterexample).  For `t = 1e-9 > 0`, both `to_string('c', t)` and
`to_string('c', -t)` are the unsigned `"00:00:00"`: the variadic entry point
quantizes to microseconds before the sign test, so the minus sign is lost and
the claimed identity fails. -/
theorem claim_C7_cex :
    to_string Specifier.c [(1 : ℚ) / 1000000000] = .ok ("00:00:00".data) ∧
    to_string Specifier.c [-((1 : ℚ) / 1000000000)] = .ok ("00:00:00".data) ∧
    ('-' :: "00:00:00".data) ≠ "00:00:00".data := by
  have h1 : timedeltaSeconds 0 0 0 ((1 : ℚ) / 1000000000) 0 = 0 := by
    rw [timedeltaSeconds,
      show ((0 : ℚ) * 86400 + 0 * 3600 + 0 * 60 + 1 / 1000000000 + 0 / 1000) * 1000000
        = 1 / 1000 from by norm_num,
      roundHalfEven_eq_zero (by norm_num) (by norm_num)]
    norm_num
  have h2 : timedeltaSeconds 0 0 0 (-((1 : ℚ) / 1000000000)) 0 = 0 := by
    rw [timedeltaSeconds,
      show ((0 : ℚ) * 86400 + 0 * 3600 + 0 * 60 + -(1 / 1000000000) + 0 / 1000) * 1000000
        = -(1 / 1000) from by norm_num,
      roundHalfEven_eq_zero (by norm_num) (by norm_num)]
    norm_num
  refine ⟨?_, ?_, by decide⟩
  · rw [to_string, show args_to_seconds [(1 : ℚ) / 1000000000] false
        = .ok (timedeltaSeconds 0 0 0 ((1 : ℚ) / 1000000000) 0) from rfl, h1, except_map_ok,
      to_string_core_eval _ _ 0 (by norm_num) le_rfl]
    congr 1
  · rw [to_string, show args_to_seconds [-((1 : ℚ) / 1000000000)] false
        = .ok (timedeltaSeconds 0 0 0 (-((1 : ℚ) / 1000000000)) 0) from rfl, h2, except_map_ok,
      to_string_core_eval _ _ 0 (by norm_num) le_rfl]
    congr 1

/-- C7 (amended).  Sign symmetry holds through the variadic entry point for
every positive duration that quantizes to a nonzero number of microseconds
(in particular every `t ≥ 1e-6`); and formatting zero never emits a sign. -/
theorem claim_C7_amended (v : Specifier) (t : ℚ) :
    (0 < t → roundHalfEven (t * 1000000) ≠ 0 →
      ∃ s, to_string v [t] = .ok s ∧ to_string v [-t] = .ok ('-' :: s)) ∧
    (∀ s, to_string v [(0 : ℚ)] = .ok s → s.head? ≠ some '-') := by
  constructor
  · intro ht hk
    have hk0 : (0 : ℤ) ≤ roundHalfEven (t * 1000000) :=
      roundHalfEven_nonneg (by positivity)
    have hkpos : (0 : ℚ) < (roundHalfEven (t * 1000000) : ℚ) / 1000000 := by
      apply div_pos _ (by norm_num)
      exact_mod_cast lt_of_le_of_ne hk0 (Ne.symm hk)
    refine ⟨to_string_core v ((roundHalfEven (t * 1000000) : ℚ) / 1000000), ?_, ?_⟩
    · rw [to_string, show args_to_seconds [t] false = .ok (timedeltaSeconds 0 0 0 t 0) from rfl,
        timedeltaSeconds_single, except_map_ok]
    · rw [to_string, show args_to_seconds [-t] false
          = .ok (timedeltaSeconds 0 0 0 (-t) 0) from rfl,
        timedeltaSeconds_single,
        show (-t) * 1000000 = -(t * 1000000) from by ring, roundHalfEven_neg,
        show ((-roundHalfEven (t * 1000000) : ℤ) : ℚ) / 1000000
          = -((roundHalfEven (t * 1000000) : ℚ) / 1000000) from by push_cast; ring,
        except_map_ok, to_string_core_neg v hkpos]
  · intro s hs
    have h0 : timedeltaSeconds 0 0 0 0 0 = 0 := by
      rw [timedeltaSeconds_single,
        show (0 : ℚ) * 1000000 = ((0 : ℕ) : ℚ) from by norm_num, roundHalfEven_natCast]
      norm_num
    rw [to_string, show args_to_seconds [(0 : ℚ)] false
        = .ok (timedeltaSeconds 0 0 0 0 0) from rfl, h0, except_map_ok,
      to_string_core_eval _ _ 0 (by norm_num) le_rfl] at hs
    cases hs
    cases v <;> decide

/-- Witness for C7 (amended) at `t = 1` with variant `c`. -/
theorem claim_C7_amended_witness :
    ∃ s, to_string Specifier.c [(1 : ℚ)] = .ok s ∧
      to_string Specifier.c [-(1 : ℚ)] = .ok ('-' :: s) :=
  (claim_C7_amended Specifier.c 1).1 (by norm_num)
    (by rw [show (1 : ℚ) * 1000000 = ((1000000 : ℕ) : ℚ) from by norm_num,
      roundHalfEven_natCast]
        norm_num)

/-- C8.  Fraction emission: the output ends in the fraction segment; for the
`c` and `g` variants that segment is present iff the tick fraction is
positive, while `G` always carries a separator followed by exactly seven
digits; a nonempty `g` fraction is a separator followed by a nonempty digit
run whose last digit is not `'0'`. -/
theorem claim_C8_fraction (v : Specifier) (t : ℚ) :
    to_string_core v t
      = signPart t ++ (daysPartUS v (tdUS t) ++ hourStrUS v (tdUS t)
        ++ ':' :: minuteStrUS (tdUS t) ++ ':' :: secondStrUS (tdUS t)
        ++ fracPartUS v (tdUS t)) ∧
    (v ≠ Specifier.G → (fracPartUS v (tdUS t) ≠ [] ↔ 0 < fracTicksOf t)) ∧
    (∃ ds, fracPartUS Specifier.G (tdUS t) = '.' :: ds ∧ ds.length = 7 ∧
      ∀ c ∈ ds, c.isDigit = true) ∧
    (fracPartUS Specifier.g (tdUS t) = [] ∨
      ∃ ds, fracPartUS Specifier.g (tdUS t) = '.' :: ds ∧ ds ≠ [] ∧
        (∀ c ∈ ds, c.isDigit = true ∨ c = '0') ∧ ds.getLast? ≠ some '0') := by
  have hlen : (natChars (usTicks (tdUS t))).length ≤ 7 := by
    refine natChars_length_le ?_ (by norm_num)
    have := usTicks_le (tdUS t)
    omega
  refine ⟨by rw [to_string_core, coreBody], ?_, ?_, ?_⟩
  · intro hvG
    constructor
    · intro hne
      by_contra h0
      apply hne
      rw [fracPartUS, if_neg]
      rintro (h | h)
      · exact h0 h
      · exact hvG h
    · intro hpos
      have hpos' : 0 < usTicks (tdUS t) := hpos
      simp only [fracPartUS]
      rw [if_pos (Or.inl hpos')]
      split_ifs <;>
        first
          | (rw [(rstripZeros_cons (fracDigits_pos hpos')).1]
             exact List.cons_ne_nil _ _)
          | exact List.cons_ne_nil _ _
  · refine ⟨zfill 7 (natChars (usTicks (tdUS t))), ?_, zfill_length hlen,
      zfill_digits (natChars_digits _)⟩
    simp [fracPartUS, NUMBER_DECIMAL_SEPARATOR]
  · by_cases hpos : 0 < usTicks (tdUS t)
    · right
      obtain ⟨heq, hne⟩ := rstripZeros_cons (x := '.') (fracDigits_pos hpos)
      refine ⟨rstripZeros (zfill 7 (natChars (usTicks (tdUS t)))), ?_, hne, ?_, ?_⟩
      · simp only [fracPartUS]
        rw [if_pos (Or.inl hpos)]
        exact heq
      · intro c hc
        exact Or.inl (zfill_digits (natChars_digits _) c (mem_of_mem_rstripZeros hc))
      · intro hlast
        exact absurd rfl (rstripZeros_getLast hlast)
    · left
      rw [fracPartUS, if_neg]
      rintro (h | h)
      · exact hpos h
      · exact absurd h (by decide)

/-- Witness for C8 at `t = 1/2` with variant `g`: the fraction segment is
present iff the tick fraction is positive. -/
theorem claim_C8_fraction_witness :
    fracPartUS Specifier.g (tdUS ((1 : ℚ) / 2)) ≠ [] ↔ 0 < fracTicksOf ((1 : ℚ) / 2) :=
  (claim_C8_fraction Specifier.g ((1 : ℚ) / 2)).2.1 (by decide)

/-- C9.  The decomposition is taken on the absolute value with the sign
emitted once as a leading marker; hours, minutes, seconds and tick fraction
stay within their moduli; days absorb the rest without any modulus (every
natural number of days is attained). -/
theorem claim_C9_decomposition (v : Specifier) (t : ℚ) :
    to_string_core v t = (if t < 0 then ['-'] else []) ++ coreBody v (tdUS |t|) ∧
    hoursOf t ≤ 23 ∧ minutesOf t ≤ 59 ∧ secondsOf t ≤ 59 ∧
    fracTicksOf t ≤ 9999999 ∧
    ∀ n : ℕ, tdDays ((n : ℚ) * 86400) = n := by
  refine ⟨?_, usHours_le _, usMinutes_le _, usSeconds_le _,
    le_trans (usTicks_le _) (by norm_num), ?_⟩
  · rw [to_string_core, signPart, show tdUS |t| = tdUS t from by rw [tdUS, tdUS, abs_abs]]
  · intro n
    rw [tdDays, show tdUS ((n : ℚ) * 86400) = n * 86400000000 from
      tdUS_eq (by rw [abs_of_nonneg (by positivity)]; push_cast; ring)]
    rw [usDays]
    omega

/-- Stripping the optional trailing newline keeps a sublist. -/
theorem mem_stripTrailingNL {cs : List Char} {x : Char} (h : x ∈ stripTrailingNL cs) :
    x ∈ cs := by
  rw [stripTrailingNL] at h
  split_ifs at h
  · exact List.Sublist.mem h (List.dropLast_sublist cs)
  · exact h

/-- A character other than the newline survives the stripping. -/
theorem mem_stripTrailingNL_of_ne {cs : List Char} {x : Char} (hx : x ∈ cs)
    (hne : x ≠ '\n') : x ∈ stripTrailingNL cs := by
  rw [stripTrailingNL]
  split_ifs with h
  · have hcs : cs ≠ [] := by
      intro h0
      rw [h0] at h
      simp at h
    rw [← List.dropLast_append_getLast hcs] at hx
    rcases List.mem_append.mp hx with h1 | h1
    · exact h1
    · rw [List.getLast?_eq_getLast cs hcs, Option.some.injEq] at h
      rw [List.mem_singleton.mp h1, h] at hne
      exact absurd rfl hne
  · exact hx

/-- C3 (on the ASCII fragment).  For an ASCII input string — the fragment on
which the ASCII digit test embeds CPython's `\d` faithfully; outside it the
uncompiled `re.ASCII` flag lets `\d` also match Unicode decimal digits, so
e.g. an ARABIC-INDIC-digit hours field parses in the code — `from_string`
succeeds exactly when the newline-stripped form is in the anchored grammar
and the string carries no comma: Python's `$` also matches before one
trailing newline, and a comma fraction — though matched by the pattern —
makes `float` raise, so such strings fail too.  (The ASCII hypothesis scopes
the statement to where the embedding is faithful; the model-level equivalence
itself does not need it.) -/
theorem claim_C3_parse_domain (cs : List Char) (hascii : ∀ c ∈ cs, c.toNat < 128) :
    (from_string cs).isSome = true ↔ (SpecGrammar (stripTrailingNL cs) ∧ ',' ∉ cs) := by
  constructor
  · intro h
    obtain ⟨q, hq⟩ := Option.isSome_iff_exists.mp h
    rw [from_string] at hq
    obtain ⟨g, hg, hmap⟩ := Option.bind_eq_some.mp hq
    obtain ⟨fq, hfv, _⟩ := Option.map_eq_some'.mp hmap
    obtain ⟨hWF, heq⟩ := pureMatch_sound hg
    refine ⟨⟨g, hWF, heq⟩, ?_⟩
    intro hmem
    have h' := mem_stripTrailingNL_of_ne hmem (by decide)
    rw [heq] at h'
    refine not_mem_renderGroups hWF (by decide) (by decide) (by decide) (by decide) ?_ h'
    intro ds hds
    rw [hds] at hfv
    simp [fractionVal] at hfv
  · rintro ⟨⟨g, hWF, heq⟩, hcomma⟩
    rw [from_string, reMatch, heq, pureMatch_complete hWF, Option.some_bind]
    cases hf : g.fraction with
    | none => rfl
    | some p =>
      obtain ⟨sep, ds⟩ := p
      have hsep : sep ≠ ',' := by
        intro hs
        subst hs
        apply hcomma
        apply mem_stripTrailingNL
        rw [heq]
        simp [renderGroups, bodyRender, fracRender, hf]
      simp only [fractionVal]
      rw [if_neg hsep]
      rfl

/-- Witness for C3 on the plain doctest string `00:30:00`: an ASCII string
that parses, lies in the grammar and holds no comma. -/
theorem claim_C3_parse_domain_witness :
    (from_string ("00:30:00".data)).isSome = true ↔
      (SpecGrammar (stripTrailingNL ("00:30:00".data)) ∧ ',' ∉ ("00:30:00".data)) :=
  claim_C3_parse_domain ("00:30:00".data) (by decide)

/-- Counterexample for C3: a trailing newline is outside the claimed anchored
grammar, yet `from_string` still parses `"00:30:00\n"` (to 1800 seconds),
because `$` in Python also matches before a final newline. -/
theorem claim_C3_cex :
    from_string ("00:30:00\n".data) = some 1800 ∧
      ¬ SpecGrammar ("00:30:00\n".data) := by
  constructor
  · have hm : reMatch ("00:30:00\n".data)
        = some ⟨false, none, ['0', '0'], ['3', '0'], ['0', '0'], none⟩ := by decide
    rw [from_string, hm, Option.some_bind,
      show fractionVal none = some 0 from rfl, Option.map_some']
    congr 1
    rw [groupsSeconds_eval _ 0 0 (by norm_num)]
    norm_num [show ((digitsVal (daysDigits none) * 86400 + digitsVal ['0', '0'] * 3600
      + digitsVal ['3', '0'] * 60 + digitsVal ['0', '0']) * 1000000 + 0 : ℕ)
      = 1800000000 from by decide]
  · rintro ⟨g, hWF, heq⟩
    apply renderGroups_no_newline hWF
    rw [← heq]
    decide
